import Mathlib

/-!
Verification of the streaming chat assistant.

This file gives a shallow embedding of the repository's code and proves or
refutes the frozen claims about it.  The central object is `streamChat`
(supabase/functions/signup-notification/index.ts, second document, lines
91-283): an incremental parser for a chunked `text/event-stream` body.  We
model strings as `List Char` (chunks are assumed already decoded to text;
`TextDecoder` with `stream: true` reassembles split multi-byte characters, so
character-level chunk splits are the faithful model of byte-level network
chunking).  `JSON.parse` together with the access
`parsed.choices?.[0]?.delta?.content` and the JavaScript truthiness test
`if (content)` is modelled by an abstract function
`parse : List Char → ParseOutcome`: `.malformed` means `JSON.parse` throws,
`.parsed (some c)` means it succeeds and the content field is a truthy value
whose string form is `c` (for strings, truthy = non-empty), and
`.parsed none` means it succeeds but the content field is absent or falsy.
-/

namespace AssistantModel

abbrev Chars := List Char

/-- Whitespace as stripped by JavaScript `String.prototype.trim` (the ASCII
part; lines of an event stream never contain the exotic Unicode spaces). -/
def jsWS (c : Char) : Bool :=
  c = ' ' || c = '\t' || c = '\n' || c = '\r' || c = '\x0b' || c = '\x0c'

/-- JavaScript `l.trim()`: strip leading and trailing whitespace. -/
def trimChars (l : Chars) : Chars :=
  ((l.dropWhile jsWS).reverse.dropWhile jsWS).reverse

/-- JavaScript `x.startsWith(p)` for pattern `p`. -/
def startsWithL : Chars → Chars → Bool
  | [], _ => true
  | _ :: _, [] => false
  | p :: ps, x :: xs => p = x && startsWithL ps xs

/-- Source line `if (line.endsWith("\r")) line = line.slice(0, -1)`. -/
def stripCR (l : Chars) : Chars :=
  if l.getLast? = some '\r' then l.dropLast else l

/-- Remove every trailing `'\r'` (proof device used to compare buffers that
differ only in how often the push-back branch has re-stripped a line). -/
def stripAllCR (l : Chars) : Chars :=
  (l.reverse.dropWhile (fun c => c = '\r')).reverse

/-- Split a buffer at its first newline: `textBuffer.indexOf("\n")` together
with the two `slice` calls of the read loop. -/
def breakLine : Chars → Option (Chars × Chars)
  | [] => none
  | c :: cs =>
    if c = '\n' then some ([], cs)
    else (breakLine cs).map (fun p => (c :: p.1, p.2))

/-- JavaScript `textBuffer.split("\n")` (semantics: `"".split` gives `[""]`,
a trailing separator yields a trailing empty line). -/
def linesOf : Chars → List Chars
  | [] => [[]]
  | c :: cs =>
    if c = '\n' then [] :: linesOf cs
    else
      match linesOf cs with
      | [] => [[c]]
      | l :: ls => (c :: l) :: ls

/-- Outcome of `JSON.parse(jsonStr)` followed by
`parsed.choices?.[0]?.delta?.content` and the truthiness test. -/
inductive ParseOutcome where
  | malformed : ParseOutcome
  | parsed : Option Chars → ParseOutcome
deriving DecidableEq

/-- What the body of the read loop does with one complete line. -/
inductive LineAct where
  | skip : LineAct
  | emit : Chars → LineAct
  | done : LineAct
  | fail : LineAct
deriving DecidableEq

def dataMarker : Chars := "data: ".toList

def doneTok : Chars := "[DONE]".toList

/-- The per-line branching of the read loop, after the `\r` strip:
comment/blank filter, `data: ` filter, `[DONE]` sentinel, then JSON parsing
(`.fail` is the catch branch that pushes the line back). -/
def lineStep (parse : Chars → ParseOutcome) (l : Chars) : LineAct :=
  if l.head? = some ':' ∨ trimChars l = [] then .skip
  else if startsWithL dataMarker l = false then .skip
  else
    let j := trimChars (l.drop 6)
    if j = doneTok then .done
    else
      match parse j with
      | .malformed => .fail
      | .parsed none => .skip
      | .parsed (some c) => .emit c

/-- Fueled form of the inner `while ((newlineIndex = ...) !== -1)` loop.
Returns the emitted deltas in order, the final `textBuffer`, and the
`streamDone` flag.  One unit of fuel per extracted line; the push-back
branch (`catch { textBuffer = line + "\n" + textBuffer; break; }`) exits
the loop, so fuel `buf.length + 1` always suffices. -/
def processBufferFuel (parse : Chars → ParseOutcome) :
    Nat → Chars → List Chars × Chars × Bool
  | 0, buf => ([], buf, false)
  | f + 1, buf =>
    match breakLine buf with
    | none => ([], buf, false)
    | some (l, r) =>
      match lineStep parse (stripCR l) with
      | .skip => processBufferFuel parse f r
      | .emit c =>
        let q := processBufferFuel parse f r
        (c :: q.1, q.2)
      | .done => ([], r, true)
      | .fail => ([], stripCR l ++ '\n' :: r, false)

/-- The inner line loop of `streamChat`. -/
def processBuffer (parse : Chars → ParseOutcome) (buf : Chars) :
    List Chars × Chars × Bool :=
  processBufferFuel parse (buf.length + 1) buf

/-- The outer `while (!streamDone)` read loop: append each chunk to the
buffer and run the line loop; stop early when `[DONE]` was seen. -/
def feed (parse : Chars → ParseOutcome) :
    List Chars → Chars → List Chars × Chars × Bool
  | [], buf => ([], buf, false)
  | c :: cs, buf =>
    let q := processBuffer parse (buf ++ c)
    if q.2.2 then (q.1, q.2.1, true)
    else
      let w := feed parse cs q.2.1
      (q.1 ++ w.1, w.2.1, w.2.2)

/-- One line of the final flush loop (`for (let raw of textBuffer.split("\n"))`;
note: no `\r` strip here, `[DONE]` is skipped rather than honoured, and a
parse failure is silently ignored). -/
def flushLine (parse : Chars → ParseOutcome) (raw : Chars) : Option Chars :=
  if raw = [] ∨ raw.head? = some ':' then none
  else if startsWithL dataMarker raw = false then none
  else
    let j := trimChars (raw.drop 6)
    if j = doneTok then none
    else
      match parse j with
      | .parsed (some c) => some c
      | _ => none

/-- The final flush: `if (textBuffer.trim()) { for ... }`. -/
def flushE (parse : Chars → ParseOutcome) (buf : Chars) : List Chars :=
  if trimChars buf = [] then []
  else (linesOf buf).filterMap (flushLine parse)

/-- All `onDelta` arguments of a successful run of `streamChat`, in call
order, when the response body arrives as the given list of chunks. -/
def runStream (parse : Chars → ParseOutcome) (cs : List Chars) : List Chars :=
  (feed parse cs []).1 ++ flushE parse (feed parse cs []).2.1

/-- Deltas of a body delivered as a single chunk, written directly from the
final machine state. -/
def oneShot (parse : Chars → ParseOutcome) (z : Chars) : List Chars :=
  (processBuffer parse z).1 ++ flushE parse (processBuffer parse z).2.1

/-! ### The full `streamChat` call as a trace of callbacks

`Resp` enumerates the outcomes of the `fetch` call as `streamChat` can
observe them; `CbEvent` records each invocation of `onDelta`, `onDone`,
`onError` in call order. -/

inductive CbEvent where
  | delta : Chars → CbEvent
  | done : CbEvent
  | errorEv : Chars → CbEvent
deriving DecidableEq

/-- Observable outcome of the `fetch` to the chat function.  `stream cs e`
means the body delivered the chunks `cs`; `e = some m` means the next
`reader.read()` then threw an error with message `m` (caught by the
surrounding `try`), `e = none` means the reader reported a clean end. -/
inductive Resp where
  | fetchFail : Chars → Resp
  | httpErr : Nat → Option Chars → Resp
  | noBody : Resp
  | stream : List Chars → Option Chars → Resp

def rateLimitMsg : Chars :=
  "Rate limit exceeded. Please wait a moment and try again.".toList

def creditsMsg : Chars :=
  "AI credits exhausted. Please add credits to continue using this feature.".toList

def noBodyMsg : Chars := "No response body received".toList

/-- The `!resp.ok` branch: fixed messages for 429 and 402, otherwise the
truthy `errorData.error` field (`none` models an absent or falsy field,
in which case the template string fallback is used). -/
def httpErrMsg (status : Nat) (e : Option Chars) : Chars :=
  if status = 429 then rateLimitMsg
  else if status = 402 then creditsMsg
  else
    match e with
    | some t => t
    | none => "Request failed with status ".toList ++ (Nat.repr status).toList

/-- The callback trace of one `streamChat` call. -/
def streamChatTrace (parse : Chars → ParseOutcome) : Resp → List CbEvent
  | .fetchFail m => [.errorEv m]
  | .httpErr s e => [.errorEv (httpErrMsg s e)]
  | .noBody => [.errorEv noBodyMsg]
  | .stream cs none => (runStream parse cs).map .delta ++ [.done]
  | .stream cs (some m) =>
    let q := feed parse cs []
    if q.2.2 then (q.1 ++ flushE parse q.2.1).map .delta ++ [.done]
    else q.1.map .delta ++ [.errorEv m]

/-! ### Spec-side view of an event-stream body

These definitions follow the specification's words (lines of the body, the
`data: ` lines before the `[DONE]` sentinel, their content fields) and are
compared with the machine above. -/

/-- A line that the read loop would recognise as the `[DONE]` sentinel. -/
def isDoneB (parse : Chars → ParseOutcome) (l : Chars) : Bool :=
  match lineStep parse (stripCR l) with
  | .done => true
  | _ => false

/-- A `data: ` line (after the `\r` strip). -/
def isDataL (l : Chars) : Bool := startsWithL dataMarker (stripCR l)

/-- The JSON payload of a line. -/
def payloadOf (l : Chars) : Chars := trimChars ((stripCR l).drop 6)

/-- The lines of a body before the first `[DONE]` sentinel (all of them when
there is no sentinel). -/
def beforeDone (parse : Chars → ParseOutcome) (ls : List Chars) : List Chars :=
  ls.takeWhile (fun l => !isDoneB parse l)

/-- The lines of a body after the first `[DONE]` sentinel. -/
def afterDone (parse : Chars → ParseOutcome) (ls : List Chars) : List Chars :=
  (ls.dropWhile (fun l => !isDoneB parse l)).drop 1

/-- Spec wording: the content field of a `data: ` line when it is a truthy
(non-empty) string. -/
def specContent (parse : Chars → ParseOutcome) (l : Chars) : Option Chars :=
  if isDataL l then
    match parse (payloadOf l) with
    | .parsed (some c) => some c
    | _ => none
  else none

/-- Spec wording of claim C1: the content fields of the well-formed `data: `
lines before the `[DONE]` sentinel, in body order. -/
def specDeltas (parse : Chars → ParseOutcome) (z : Chars) : List Chars :=
  (beforeDone parse (linesOf z)).filterMap (specContent parse)

/-- Hypothesis of claim C1: every `data: ` line before the sentinel carries
well-formed JSON. -/
abbrev WellFormedPre (parse : Chars → ParseOutcome) (z : Chars) : Prop :=
  ∀ l ∈ beforeDone parse (linesOf z),
    isDataL l = true → parse (payloadOf l) ≠ ParseOutcome.malformed

/-- No `data: ` line follows the `[DONE]` sentinel (the amendment that claims
C1 and C2 need). -/
abbrev GoodBody (parse : Chars → ParseOutcome) (z : Chars) : Prop :=
  ∀ l ∈ afterDone parse (linesOf z), isDataL l = false

/-- Machine-side view of one line: the delta it emits, if any. -/
def lineContent (parse : Chars → ParseOutcome) (l : Chars) : Option Chars :=
  match lineStep parse (stripCR l) with
  | .emit c => some c
  | _ => none

/-- The deltas of a list of lines. -/
def wfContents (parse : Chars → ParseOutcome) (ls : List Chars) : List Chars :=
  ls.filterMap (lineContent parse)

/-! ### Concrete parse oracle for the worked examples

`sampleParse` records what `JSON.parse` and the content access do on the
payload strings appearing in the concrete witnesses and counterexamples
below: `jsonHello` and `jsonWorld` are valid JSON whose
`choices[0].delta.content` is the non-empty string `"Hello"` / `"World"`;
every other payload used below (such as the truncated `jsonBad`) is not
valid JSON, so `JSON.parse` throws on it. -/

def jsonHello : Chars :=
  "\x7b\"choices\":[\x7b\"delta\":\x7b\"content\":\"Hello\"\x7d\x7d]\x7d".toList

def jsonWorld : Chars :=
  "\x7b\"choices\":[\x7b\"delta\":\x7b\"content\":\"World\"\x7d\x7d]\x7d".toList

def jsonBad : Chars := "\x7b\"choices\":[\x7b\"de".toList

def sampleParse (j : Chars) : ParseOutcome :=
  if j = jsonHello then .parsed (some "Hello".toList)
  else if j = jsonWorld then .parsed (some "World".toList)
  else .malformed

/-! ### The signup trigger (SQL migration, claim C4) -/

/-- A row of `auth.users` as the trigger sees it. -/
structure UserRow where
  email : Chars
  created_at : Chars
deriving DecidableEq

/-- An outgoing `net.http_post` request. -/
structure HttpPost where
  url : Chars
  headers : List (Chars × Chars)
  body : List (Chars × Chars)
deriving DecidableEq

/-- Function `public.notify_new_signup()`: builds the http_post to the
signup-notification function from the `NEW` row and returns `NEW`.
`settings = (supabase_url, service_role_key)`. -/
def notify_new_signup (settings : Chars × Chars) (NEW : UserRow) :
    HttpPost × UserRow :=
  ({ url := settings.1 ++ "/functions/v1/signup-notification".toList
     headers :=
       [("Content-Type".toList, "application/json".toList),
        ("Authorization".toList, "Bearer ".toList ++ settings.2)]
     body :=
       [("email".toList, NEW.email),
        ("created_at".toList, NEW.created_at)] },
   NEW)

/-- Trigger `AFTER INSERT ON auth.users FOR EACH ROW EXECUTE FUNCTION
notify_new_signup()`: inserting a batch of rows stores exactly those rows and
fires the trigger once per row, in insertion order. -/
def insertUsers (settings : Chars × Chars) (rows : List UserRow) :
    List UserRow × List HttpPost :=
  (rows.map (fun r => (notify_new_signup settings r).2),
   rows.map (fun r => (notify_new_signup settings r).1))

/-! ### File attachment processing in `streamChat` (claim C5) -/

/-- A `File` as `streamChat` reads it: `b64` is the base64 payload that
`fileToBase64` resolves with, `textContent` the result of `file.text()`.
Reads are modelled as succeeding (the catch branch is not part of the
claim). -/
structure FileModel where
  name : Chars
  ftype : Chars
  b64 : Chars
  textContent : Chars
deriving DecidableEq

/-- One element of a multimodal content array. -/
inductive Part where
  | textPart : Chars → Part
  | imagePart : Chars → Part
deriving DecidableEq

/-- Source line `const mimeType = file.type || 'application/octet-stream'`. -/
def mimeTypeOf (f : FileModel) : Chars :=
  if f.ftype = [] then "application/octet-stream".toList else f.ftype

def dataUrl (mime : Chars) (b64 : Chars) : Chars :=
  "data:".toList ++ mime ++ ";base64,".toList ++ b64

def endsWithL (suffix : Chars) (l : Chars) : Bool :=
  startsWithL suffix.reverse l.reverse

def pdfNote (name : Chars) : Chars :=
  "[PDF Document: ".toList ++ name ++
    "]\nNote: This is a PDF file. Please analyze its content.".toList

def docWrapped (name text : Chars) : Chars :=
  "\n\n--- Document: ".toList ++ name ++ " ---\n".toList ++ text ++
    "\n--- End of ".toList ++ name ++ " ---\n".toList

def otherNote (name mime : Chars) : Chars :=
  "[Document: ".toList ++ name ++ " (".toList ++ mime ++
    ")]\nThis document has been uploaded. Please analyze its content if possible.".toList

/-- Whether a file lands in the text-inlining branch. -/
def isTextLike (f : FileModel) : Bool :=
  startsWithL "text/".toList (mimeTypeOf f) ||
  mimeTypeOf f = "application/json".toList ||
  mimeTypeOf f = "application/xml".toList ||
  endsWithL ".md".toList f.name ||
  endsWithL ".txt".toList f.name ||
  endsWithL ".csv".toList f.name ||
  endsWithL ".log".toList f.name

/-- The content parts one file contributes (the four branches of the
`for (const file of files)` loop, in source order). -/
def fileParts (f : FileModel) : List Part :=
  let mt := mimeTypeOf f
  if startsWithL "image/".toList mt then
    [.imagePart (dataUrl mt f.b64)]
  else if mt = "application/pdf".toList then
    [.textPart (pdfNote f.name), .imagePart (dataUrl mt f.b64)]
  else if isTextLike f then
    [.textPart (docWrapped f.name f.textContent)]
  else
    [.textPart (otherNote f.name mt)]

/-- A chat message as the UI sends it (content always a string there). -/
structure MsgT where
  role : Chars
  content : Chars
deriving DecidableEq

/-- A message as forwarded to the chat function: content is either the
original string or a multimodal array. -/
inductive ContentV where
  | str : Chars → ContentV
  | multi : List Part → ContentV
deriving DecidableEq

structure PMsg where
  role : Chars
  content : ContentV
deriving DecidableEq

def plainMsg (m : MsgT) : PMsg := ⟨m.role, .str m.content⟩

def mapIdxGo (f : Nat → α → β) : Nat → List α → List β
  | _, [] => []
  | i, a :: as => f i a :: mapIdxGo f (i + 1) as

/-- The `messages.map((msg, idx) => ...)` wrapping of `streamChat`. -/
def processedMessages (files : List FileModel) (msgs : List MsgT) : List PMsg :=
  let fileContents := (files.map fileParts).flatten
  if fileContents = [] then msgs.map plainMsg
  else
    mapIdxGo
      (fun idx m =>
        if idx = msgs.length - 1 ∧ m.role = "user".toList then
          ⟨m.role, .multi (.textPart m.content :: fileContents)⟩
        else plainMsg m)
      0 msgs

/-! ### Voice response (claims C6) -/

/-- Hook `useVoiceResponse.speak`: `some body` when the text-to-speech function is
invoked with that text, `none` when the early return
`if (!isVoiceEnabled || !text.trim()) return;` fires. -/
def speakTts (isVoiceEnabled : Bool) (text : Chars) : Option Chars :=
  if isVoiceEnabled = false ∨ trimChars text = [] then none else some text

/-- The `onDone` handler of `Index.handleSendMessage`:
`if (isVoiceEnabled && assistantContent) speak(assistantContent)` — a string
is truthy exactly when it is non-empty. -/
def onDoneSpeak (isVoiceEnabled : Bool) (assistantContent : Chars) :
    Option Chars :=
  if isVoiceEnabled = true ∧ assistantContent ≠ [] then
    speakTts isVoiceEnabled assistantContent
  else none

/-! ### CORS headers of the three handlers (claim C7) -/

structure HttpResp where
  status : Nat
  headers : List (Chars × Chars)

def acaoHeader : Chars × Chars :=
  ("Access-Control-Allow-Origin".toList, "*".toList)

def corsHeaders : List (Chars × Chars) :=
  [acaoHeader,
   ("Access-Control-Allow-Headers".toList,
    "authorization, x-client-info, apikey, content-type".toList)]

def ctJson : Chars × Chars :=
  ("Content-Type".toList, "application/json".toList)

/-- The branches of the chat function handler (`chat/index.ts`): OPTIONS
preflight, any thrown error (bad request JSON, missing key) reaching the
catch block, upstream gateway failure with its status, upstream success. -/
inductive ChatCase where
  | options : ChatCase
  | caught : ChatCase
  | upstreamFail : Nat → ChatCase
  | upstreamOk : ChatCase

def chatHandler : ChatCase → HttpResp
  | .options => ⟨200, corsHeaders⟩
  | .caught => ⟨500, corsHeaders ++ [ctJson]⟩
  | .upstreamFail s =>
    if s = 429 then ⟨429, corsHeaders ++ [ctJson]⟩
    else if s = 402 then ⟨402, corsHeaders ++ [ctJson]⟩
    else ⟨500, corsHeaders ++ [ctJson]⟩
  | .upstreamOk =>
    ⟨200, corsHeaders ++ [("Content-Type".toList, "text/event-stream".toList)]⟩

/-- The signup-notification handler: OPTIONS, the success path, and the
catch block (bad JSON, missing key, Resend failure). -/
inductive SignupCase where
  | options : SignupCase
  | ok : SignupCase
  | caught : SignupCase

def signupHandler : SignupCase → HttpResp
  | .options => ⟨200, corsHeaders⟩
  | .ok => ⟨200, corsHeaders ++ [ctJson]⟩
  | .caught => ⟨500, corsHeaders ++ [ctJson]⟩

/-- The cloudinary handler: OPTIONS, the three action success paths, and the
catch block (missing credentials, missing fields, upload failure, unknown
action). -/
inductive CloudinaryCase where
  | options : CloudinaryCase
  | uploadOk : CloudinaryCase
  | transformOk : CloudinaryCase
  | deleteOk : CloudinaryCase
  | caught : CloudinaryCase

def cloudinaryHandler : CloudinaryCase → HttpResp
  | .options => ⟨200, corsHeaders⟩
  | .uploadOk => ⟨200, corsHeaders ++ [ctJson]⟩
  | .transformOk => ⟨200, corsHeaders ++ [ctJson]⟩
  | .deleteOk => ⟨200, corsHeaders ++ [ctJson]⟩
  | .caught => ⟨500, corsHeaders ++ [ctJson]⟩

/-! ### Cloudinary signature (claim C8)

`crypto.subtle.digest('SHA-1', ...)` is modelled by an abstract
`sha1 : Chars → List Nat` from the encoded input to the digest bytes
(`TextEncoder.encode` is kept implicit: `sha1` consumes the character
string). -/

/-- One digit of JavaScript `Number.prototype.toString(16)`. -/
def hexDigit (n : Nat) : Char :=
  if n < 10 then Char.ofNat ('0'.toNat + n) else Char.ofNat ('a'.toNat + (n - 10))

def natToHexAux : Nat → Nat → Chars
  | 0, _ => []
  | fuel + 1, n =>
    if n < 16 then [hexDigit n]
    else natToHexAux fuel (n / 16) ++ [hexDigit (n % 16)]

/-- JavaScript `b.toString(16)` for a byte value. -/
def natToHex (n : Nat) : Chars := natToHexAux (n + 1) n

/-- JavaScript `s.padStart(2, '0')`. -/
def padStart2 (s : Chars) : Chars := List.replicate (2 - s.length) '0' ++ s

/-- Source line `hashArray.map(b => b.toString(16).padStart(2, '0')).join('')`. -/
def hashHex (digest : List Nat) : Chars := (digest.map (fun b => padStart2 (natToHex b))).flatten

/-- String `paramsToSign` for an upload: `` `timestamp=${timestamp}` ``. -/
def uploadParams (ts : Nat) : Chars := "timestamp=".toList ++ (Nat.repr ts).toList

/-- String `paramsToSign` for a delete: `` `public_id=${publicId}&timestamp=${timestamp}` ``. -/
def deleteParams (publicId : Chars) (ts : Nat) : Chars :=
  "public_id=".toList ++ publicId ++ "&timestamp=".toList ++ (Nat.repr ts).toList

/-- The signature the upload branch sends. -/
def uploadSignature (sha1 : Chars → List Nat) (secret : Chars) (ts : Nat) : Chars :=
  hashHex (sha1 (uploadParams ts ++ secret))

/-- The signature the delete branch sends. -/
def deleteSignature (sha1 : Chars → List Nat) (secret : Chars) (publicId : Chars)
    (ts : Nat) : Chars :=
  hashHex (sha1 (deleteParams publicId ts ++ secret))

/-- Spec wording: the lowercase hexadecimal digest, two hex digits per
byte. -/
def specHexLower (digest : List Nat) : Chars :=
  (digest.map (fun b => [hexDigit (b / 16), hexDigit (b % 16)])).flatten

/-! ### The Index page's `onError` handler (claim C10) -/

structure UiMsg where
  id : Chars
  role : Chars
  content : Chars
deriving DecidableEq

/-- Handler `onError`: `setIsTyping(false)` and
`setMessages(prev => prev.filter(m => m.id !== userMessage.id))`.
Returns the new message list and the new typing flag. -/
def onErrorUpdate (msgs : List UiMsg) (uid : Chars) : List UiMsg × Bool :=
  (msgs.filter (fun m => decide (m.id ≠ uid)), false)

/-- Last element of a non-empty list of lines (`[]` for the empty list). -/
def lastL : List Chars → Chars
  | [] => []
  | [a] => a
  | _ :: b :: t => lastL (b :: t)

/-- All but the last element. -/
def initL : List Chars → List Chars
  | [] => []
  | [_] => []
  | a :: b :: t => a :: initL (b :: t)

/-- First element (`[]` for the empty list). -/
def headL : List Chars → Chars
  | [] => []
  | a :: _ => a

/-! Proof-device definitions for the chunking argument. -/

/-- Two buffers are related when they agree except that their first
(complete) lines may carry a different number of trailing `'\r'`s — exactly
the difference the push-back branch can introduce. -/
def Rbuf (b b' : Chars) : Prop :=
  b = b' ∨ ∃ l l' r, '\n' ∉ l ∧ '\n' ∉ l' ∧ stripAllCR l = stripAllCR l' ∧
    b = l ++ '\n' :: r ∧ b' = l' ++ '\n' :: r

/-- Machine states (deltas so far, buffer, done flag) equal up to `Rbuf`. -/
def EqT (a b : List Chars × Chars × Bool) : Prop :=
  a.1 = b.1 ∧ a.2.2 = b.2.2 ∧ Rbuf a.2.1 b.2.1

/-- The read loop started on a buffer `x`, followed by the chunk loop on
`cs` (`feedAll [] cs = feed cs []` because the loop body runs only after a
chunk arrives). -/
def feedAll (parse : Chars → ParseOutcome) (cs : List Chars) (x : Chars) :
    List Chars × Chars × Bool :=
  let q := processBuffer parse x
  if q.2.2 then q
  else
    let w := feed parse cs q.2.1
    (q.1 ++ w.1, w.2.1, w.2.2)

/-- Deltas of the loop followed by the final flush. -/
def finishRun (parse : Chars → ParseOutcome)
    (q : List Chars × Chars × Bool) : List Chars :=
  q.1 ++ flushE parse q.2.1

/-! ## Basic lemmas on the string helpers -/

theorem startsWithL_mono {d y : Chars} (h : startsWithL d y = true) (w : Chars) :
    startsWithL d (y ++ w) = true := by
  induction d generalizing y with
  | nil => rfl
  | cons a d ih =>
    cases y with
    | nil => simp [startsWithL] at h
    | cons b y =>
      simp only [startsWithL, Bool.and_eq_true, decide_eq_true_eq] at h
      simp [startsWithL, h.1, ih h.2]

theorem startsWithL_concat {d : Chars} {c : Char} (hc : c ∉ d) (y : Chars) :
    startsWithL d (y ++ [c]) = startsWithL d y := by
  induction d generalizing y with
  | nil => rfl
  | cons a d ih =>
    cases y with
    | nil =>
      simp only [List.nil_append, startsWithL]
      have : ¬(a = c) := fun h => hc (h ▸ List.mem_cons_self a d)
      simp [this]
    | cons b y =>
      have : c ∉ d := fun h => hc (List.mem_cons_of_mem a h)
      simp [startsWithL, ih this]

theorem startsWithL_le_length {d y : Chars} (h : startsWithL d y = true) :
    d.length ≤ y.length := by
  induction d generalizing y with
  | nil => simp
  | cons a d ih =>
    cases y with
    | nil => simp [startsWithL] at h
    | cons b y =>
      simp only [startsWithL, Bool.and_eq_true] at h
      simpa using ih h.2

theorem dropWhile_append_of_all {p : Char → Bool} {u : Chars} (h : u.all p = true)
    (v : Chars) : List.dropWhile p (u ++ v) = List.dropWhile p v := by
  induction u with
  | nil => rfl
  | cons a u ih =>
    simp only [List.all_cons, Bool.and_eq_true] at h
    simp [List.dropWhile, h.1, ih h.2]

theorem dropWhile_append_of_ne {p : Char → Bool} {u : Chars}
    (h : List.dropWhile p u ≠ []) (v : Chars) :
    List.dropWhile p (u ++ v) = List.dropWhile p u ++ v := by
  induction u with
  | nil => simp at h
  | cons a u ih =>
    by_cases hp : p a
    · simp only [List.dropWhile, hp] at h ⊢
      exact ih h
    · simp [List.dropWhile, hp]

theorem dropWhile_nil_iff_all {p : Char → Bool} {u : Chars} :
    List.dropWhile p u = [] ↔ u.all p = true := by
  induction u with
  | nil => simp
  | cons a u ih =>
    by_cases hp : p a
    · simp [List.dropWhile, hp, ih]
    · simp [List.dropWhile, hp]

theorem trim_nil_iff {l : Chars} : trimChars l = [] ↔ l.all jsWS = true := by
  unfold trimChars
  rw [List.reverse_eq_nil_iff, dropWhile_nil_iff_all, List.all_reverse]
  constructor
  · intro h
    have hsplit := List.takeWhile_append_dropWhile (p := jsWS) (l := l)
    rw [← hsplit, List.all_append, h, Bool.and_true]
    simp only [List.all_eq_true]
    exact fun x hx => List.mem_takeWhile_imp hx
  · intro h
    rw [dropWhile_nil_iff_all.mpr h]
    rfl

theorem trim_concat_ws {c : Char} (hc : jsWS c = true) (y : Chars) :
    trimChars (y ++ [c]) = trimChars y := by
  by_cases hall : y.all jsWS = true
  · have h1 : trimChars (y ++ [c]) = [] := by
      rw [trim_nil_iff, List.all_append]
      simp [hall, hc]
    have h2 : trimChars y = [] := trim_nil_iff.mpr hall
    rw [h1, h2]
  · have hne : List.dropWhile jsWS y ≠ [] := by
      rw [Ne, dropWhile_nil_iff_all]; exact hall
    unfold trimChars
    rw [dropWhile_append_of_ne hne, List.reverse_append]
    simp [List.dropWhile, hc]

theorem all_concat_ws {c : Char} (hc : jsWS c = true) (y : Chars) :
    (y ++ [c]).all jsWS = y.all jsWS := by
  simp [List.all_append, hc]

/-! ## `stripCR` and `stripAllCR` -/

theorem stripCR_cases (l : Chars) :
    stripCR l = l ∨ ∃ y, l = y ++ ['\r'] ∧ stripCR l = y := by
  unfold stripCR
  by_cases h : l.getLast? = some '\r'
  · right
    have hne : l ≠ [] := by intro he; subst he; simp at h
    refine ⟨l.dropLast, ?_, by simp [h]⟩
    have := List.dropLast_append_getLast hne
    rw [List.getLast?_eq_getLast l hne] at h
    have hc : l.getLast hne = '\r' := by injection h
    rw [← hc]; exact this.symm
  · left; simp [h]

theorem stripAllCR_concat (y : Chars) :
    stripAllCR (y ++ ['\r']) = stripAllCR y := by
  unfold stripAllCR
  simp [List.dropWhile]

theorem stripAllCR_of_last_ne {l : Chars} (h : l.getLast? ≠ some '\r') :
    stripAllCR l = l := by
  unfold stripAllCR
  cases hr : l.reverse with
  | nil =>
    have : l = [] := by simpa using congrArg List.reverse hr
    simp [this]
  | cons a t =>
    have hl : l = (a :: t).reverse := by
      have := congrArg List.reverse hr
      simpa using this
    have ha : a ≠ '\r' := by
      intro he
      apply h
      rw [hl, he]
      simp
    simp only [hr, List.dropWhile]
    simp only [decide_eq_true_eq, ha, if_neg, ite_false]
    rw [← hr]
    simp

theorem stripAllCR_stripCR (l : Chars) : stripAllCR (stripCR l) = stripAllCR l := by
  rcases stripCR_cases l with h | ⟨y, hy, hs⟩
  · rw [h]
  · rw [hs, hy, stripAllCR_concat]

theorem stripCR_no_newline {l : Chars} (h : '\n' ∉ l) : '\n' ∉ stripCR l := by
  rcases stripCR_cases l with he | ⟨y, hy, hs⟩
  · rw [he]; exact h
  · rw [hs]; intro hm
    exact h (hy ▸ List.mem_append_left _ hm)

/-! ## `breakLine` and `linesOf` -/

theorem breakLine_some_eq :
    ∀ {x l r : Chars}, breakLine x = some (l, r) → x = l ++ '\n' :: r ∧ '\n' ∉ l := by
  intro x
  induction x with
  | nil => intro l r h; simp [breakLine] at h
  | cons c cs ih =>
    intro l r h
    by_cases hc : c = '\n'
    · subst hc
      simp only [breakLine, if_pos rfl, Option.some.injEq, Prod.mk.injEq] at h
      obtain ⟨rfl, rfl⟩ := h
      exact ⟨rfl, by simp⟩
    · simp only [breakLine, if_neg hc, Option.map_eq_some'] at h
      obtain ⟨⟨l0, r0⟩, hp, he⟩ := h
      simp only [Prod.mk.injEq] at he
      obtain ⟨rfl, rfl⟩ := he
      obtain ⟨hx, hn⟩ := ih hp
      constructor
      · rw [hx]; rfl
      · intro hm
        rcases List.mem_cons.mp hm with h | h
        · exact hc h.symm
        · exact hn h

theorem breakLine_none_mem : ∀ {x : Chars}, breakLine x = none → '\n' ∉ x := by
  intro x
  induction x with
  | nil => intro _ hm; simp at hm
  | cons c cs ih =>
    intro h hm
    by_cases hc : c = '\n'
    · simp [breakLine, hc] at h
    · simp only [breakLine, if_neg hc, Option.map_eq_none'] at h
      rcases List.mem_cons.mp hm with h1 | h1
      · exact hc h1.symm
      · exact ih h h1

theorem breakLine_mk {l : Chars} (hl : '\n' ∉ l) (r : Chars) :
    breakLine (l ++ '\n' :: r) = some (l, r) := by
  induction l with
  | nil => simp [breakLine]
  | cons c cs ih =>
    have hc : c ≠ '\n' := fun h => hl (h ▸ List.mem_cons_self c cs)
    have hcs : '\n' ∉ cs := fun h => hl (List.mem_cons_of_mem c h)
    simp [breakLine, hc, ih hcs]

theorem breakLine_append {x l r : Chars} (h : breakLine x = some (l, r)) (s : Chars) :
    breakLine (x ++ s) = some (l, r ++ s) := by
  obtain ⟨hx, hn⟩ := breakLine_some_eq h
  rw [hx, List.append_assoc]
  exact breakLine_mk hn (r ++ s)

theorem breakLine_len {x l r : Chars} (h : breakLine x = some (l, r)) :
    r.length < x.length := by
  obtain ⟨hx, _⟩ := breakLine_some_eq h
  rw [hx]; simp
  omega

theorem linesOf_ne_nil (z : Chars) : linesOf z ≠ [] := by
  cases z with
  | nil => simp [linesOf]
  | cons c cs =>
    by_cases hc : c = '\n'
    · simp [linesOf, hc]
    · simp only [linesOf, if_neg hc]
      cases linesOf cs <;> simp

theorem linesOf_nosplit {z : Chars} (h : '\n' ∉ z) : linesOf z = [z] := by
  induction z with
  | nil => rfl
  | cons c cs ih =>
    have hc : c ≠ '\n' := fun he => h (he ▸ List.mem_cons_self c cs)
    have hcs : '\n' ∉ cs := fun hm => h (List.mem_cons_of_mem c hm)
    simp [linesOf, hc, ih hcs]

theorem headL_cons (ls : List Chars) (h : ls ≠ []) : headL ls :: ls.tail = ls := by
  cases ls with
  | nil => exact absurd rfl h
  | cons a t => rfl

theorem linesOf_cons_ne {c : Char} (hc : c ≠ '\n') (w : Chars) :
    linesOf (c :: w) = (c :: headL (linesOf w)) :: (linesOf w).tail := by
  simp only [linesOf, if_neg hc]
  cases hl : linesOf w with
  | nil => exact absurd hl (linesOf_ne_nil w)
  | cons a t => rfl

theorem linesOf_break {l : Chars} (hl : '\n' ∉ l) (r : Chars) :
    linesOf (l ++ '\n' :: r) = l :: linesOf r := by
  induction l with
  | nil => simp [linesOf]
  | cons c cs ih =>
    have hc : c ≠ '\n' := fun h => hl (h ▸ List.mem_cons_self c cs)
    have hcs : '\n' ∉ cs := fun h => hl (List.mem_cons_of_mem c h)
    rw [List.cons_append, linesOf_cons_ne hc, ih hcs]
    rfl

/-- Lemma: `linesOf` distributes over a newline that separates two parts. -/
theorem linesOf_split (u v : Chars) :
    linesOf (u ++ '\n' :: v) = linesOf u ++ linesOf v := by
  induction u with
  | nil => simp [linesOf]
  | cons c u ih =>
    by_cases hc : c = '\n'
    · subst hc
      rw [List.cons_append]
      show linesOf ('\n' :: (u ++ '\n' :: v)) = _
      simp only [linesOf, if_pos rfl, ih]
      rfl
    · obtain ⟨h, t, hu⟩ : ∃ h t, linesOf u = h :: t := by
        cases hl : linesOf u with
        | nil => exact absurd hl (linesOf_ne_nil u)
        | cons h t => exact ⟨h, t, rfl⟩
      rw [List.cons_append, linesOf_cons_ne hc, ih, linesOf_cons_ne hc u, hu]
      simp [headL]

/-- Lemma: `linesOf` on an append: the last line of `u` merges with the first line
of `v`. -/
theorem linesOf_append (u v : Chars) :
    linesOf (u ++ v) =
      initL (linesOf u) ++ (lastL (linesOf u) ++ headL (linesOf v)) :: (linesOf v).tail := by
  induction u with
  | nil =>
    simp only [List.nil_append]
    show linesOf v = [] ++ ([] ++ headL (linesOf v)) :: (linesOf v).tail
    simp only [List.nil_append]
    exact (headL_cons _ (linesOf_ne_nil v)).symm
  | cons c u ih =>
    obtain ⟨h, t, hu⟩ : ∃ h t, linesOf u = h :: t := by
      cases hl : linesOf u with
      | nil => exact absurd hl (linesOf_ne_nil u)
      | cons h t => exact ⟨h, t, rfl⟩
    rw [hu] at ih
    by_cases hc : c = '\n'
    · subst hc
      have hl : linesOf ('\n' :: u ++ v) = [] :: linesOf (u ++ v) := by
        rw [List.cons_append]; simp [linesOf]
      have hr : linesOf ('\n' :: u) = [] :: (h :: t) := by
        simp [linesOf, hu]
      rw [hl, hr, ih]
      cases t with
      | nil => simp [initL, lastL]
      | cons t0 t1 => simp [initL, lastL]
    · rw [List.cons_append, linesOf_cons_ne hc (u ++ v), ih,
        linesOf_cons_ne hc u, hu]
      cases t with
      | nil => simp [initL, lastL, headL]
      | cons t0 t1 => simp [initL, lastL, headL]

theorem mem_initL_or_lastL {l : Chars} {ls : List Chars} (h : l ∈ ls) :
    l ∈ initL ls ∨ l = lastL ls := by
  induction ls with
  | nil => simp at h
  | cons a t ih =>
    cases t with
    | nil =>
      simp only [List.mem_singleton] at h
      right; rw [h]; rfl
    | cons b t2 =>
      rcases List.mem_cons.mp h with h1 | h1
      · left; rw [h1]; simp [initL]
      · rcases ih h1 with h2 | h2
        · left; simp [initL, h2]
        · right; rw [h2]; rfl

/-! ## Invariance of the per-line functions under trailing `'\r'` removal

The push-back branch stores the already-`\r`-stripped line, so on the next
read the same line is classified again after one more strip.  These lemmas
show that no amount of trailing-`\r` stripping changes what the loop or the
flush does with a line. -/

theorem data_head {l : Chars} (h : startsWithL dataMarker l = true) :
    l.head? = some 'd' := by
  have hd : dataMarker = 'd' :: "ata: ".toList := rfl
  cases l with
  | nil => rw [hd] at h; simp [startsWithL] at h
  | cons a l' =>
    rw [hd] at h
    simp only [startsWithL, Bool.and_eq_true, decide_eq_true_eq] at h
    rw [List.head?_cons, ← h.1]

theorem data_trim_ne {l : Chars} (h : startsWithL dataMarker l = true) :
    trimChars l ≠ [] := by
  intro he
  have hall := trim_nil_iff.mp he
  cases l with
  | nil => simp [startsWithL, dataMarker] at h
  | cons a l' =>
    have ha : a = 'd' := by
      have := data_head h
      simpa using this
    rw [List.all_cons, ha] at hall
    simp [jsWS] at hall

theorem data_len {l : Chars} (h : startsWithL dataMarker l = true) :
    6 ≤ l.length := by
  have h1 := startsWithL_le_length h
  have h2 : dataMarker.length = 6 := rfl
  omega

theorem lineStep_concat_cr (parse : Chars → ParseOutcome) (y : Chars) :
    lineStep parse (y ++ ['\r']) = lineStep parse y := by
  cases y with
  | nil =>
    have e1 : trimChars ['\r'] = [] := by decide
    have e2 : trimChars ([] : Chars) = [] := by decide
    simp [lineStep, e1, e2]
  | cons a y' =>
    have hhead : ((a :: y') ++ ['\r']).head? = (a :: y').head? := by simp
    have htrim : trimChars ((a :: y') ++ ['\r']) = trimChars (a :: y') :=
      trim_concat_ws (by decide) _
    have hdata : startsWithL dataMarker ((a :: y') ++ ['\r']) =
        startsWithL dataMarker (a :: y') :=
      startsWithL_concat (by decide) _
    by_cases hd : startsWithL dataMarker (a :: y') = true
    · have hj : trimChars (((a :: y') ++ ['\r']).drop 6) =
          trimChars ((a :: y').drop 6) := by
        rw [List.drop_append_of_le_length (data_len hd), trim_concat_ws (by decide)]
      simp only [lineStep, hhead, htrim, hdata, hj]
    · have hd' : startsWithL dataMarker (a :: y') = false := by simpa using hd
      simp only [lineStep, hhead, htrim, hdata, hd']
      simp

theorem flushLine_concat_cr (parse : Chars → ParseOutcome) (y : Chars) :
    flushLine parse (y ++ ['\r']) = flushLine parse y := by
  cases y with
  | nil =>
    have e1 : startsWithL dataMarker ['\r'] = false := by decide
    simp [flushLine, e1]
  | cons a y' =>
    have hg1 : ((a :: y') ++ ['\r'] = [] ∨ ((a :: y') ++ ['\r']).head? = some ':') ↔
        ((a :: y') = [] ∨ (a :: y').head? = some ':') := by
      simp
    have hdata : startsWithL dataMarker ((a :: y') ++ ['\r']) =
        startsWithL dataMarker (a :: y') :=
      startsWithL_concat (by decide) _
    by_cases hd : startsWithL dataMarker (a :: y') = true
    · have hj : trimChars (((a :: y') ++ ['\r']).drop 6) =
          trimChars ((a :: y').drop 6) := by
        rw [List.drop_append_of_le_length (data_len hd), trim_concat_ws (by decide)]
      simp only [flushLine, hg1, hdata, hj]
    · have hd' : startsWithL dataMarker (a :: y') = false := by simpa using hd
      simp only [flushLine, hg1, hdata, hd']
      simp

theorem getLast_cr_decomp {l : Chars} (h : l.getLast? = some '\r') :
    ∃ y, l = y ++ ['\r'] := by
  rcases stripCR_cases l with he | ⟨y, hy, _⟩
  · unfold stripCR at he
    rw [if_pos h] at he
    have hne : l ≠ [] := by intro hl; subst hl; simp at h
    refine ⟨l.dropLast, ?_⟩
    have hd := List.dropLast_append_getLast hne
    rw [List.getLast?_eq_getLast l hne] at h
    have hc : l.getLast hne = '\r' := by injection h
    rw [← hc]; exact hd.symm
  · exact ⟨y, hy⟩

theorem lineStep_stripCR (parse : Chars → ParseOutcome) (l : Chars) :
    lineStep parse (stripCR l) = lineStep parse l := by
  rcases stripCR_cases l with he | ⟨y, hy, hs⟩
  · rw [he]
  · rw [hs, hy, lineStep_concat_cr]

theorem lineStep_stripAll (parse : Chars → ParseOutcome) (l : Chars) :
    lineStep parse (stripAllCR l) = lineStep parse l := by
  suffices H : ∀ n (l : Chars), l.length ≤ n →
      lineStep parse (stripAllCR l) = lineStep parse l from H l.length l le_rfl
  intro n
  induction n with
  | zero =>
    intro l hl
    have : l = [] := List.length_eq_zero.mp (Nat.le_zero.mp hl)
    subst this; rfl
  | succ n ih =>
    intro l hl
    by_cases hr : l.getLast? = some '\r'
    · obtain ⟨y, hy⟩ := getLast_cr_decomp hr
      subst hy
      rw [stripAllCR_concat, lineStep_concat_cr]
      have : y.length ≤ n := by
        have := hl
        simp only [List.length_append, List.length_singleton] at this
        omega
      exact ih y this
    · rw [stripAllCR_of_last_ne hr]

theorem flushLine_stripAll (parse : Chars → ParseOutcome) (l : Chars) :
    flushLine parse (stripAllCR l) = flushLine parse l := by
  suffices H : ∀ n (l : Chars), l.length ≤ n →
      flushLine parse (stripAllCR l) = flushLine parse l from H l.length l le_rfl
  intro n
  induction n with
  | zero =>
    intro l hl
    have : l = [] := List.length_eq_zero.mp (Nat.le_zero.mp hl)
    subst this; rfl
  | succ n ih =>
    intro l hl
    by_cases hr : l.getLast? = some '\r'
    · obtain ⟨y, hy⟩ := getLast_cr_decomp hr
      subst hy
      rw [stripAllCR_concat, flushLine_concat_cr]
      have : y.length ≤ n := by
        have := hl
        simp only [List.length_append, List.length_singleton] at this
        omega
      exact ih y this
    · rw [stripAllCR_of_last_ne hr]

theorem allWS_stripAll (l : Chars) : (stripAllCR l).all jsWS = l.all jsWS := by
  suffices H : ∀ n (l : Chars), l.length ≤ n →
      (stripAllCR l).all jsWS = l.all jsWS from H l.length l le_rfl
  intro n
  induction n with
  | zero =>
    intro l hl
    have : l = [] := List.length_eq_zero.mp (Nat.le_zero.mp hl)
    subst this; rfl
  | succ n ih =>
    intro l hl
    by_cases hr : l.getLast? = some '\r'
    · obtain ⟨y, hy⟩ := getLast_cr_decomp hr
      subst hy
      rw [stripAllCR_concat, all_concat_ws (by decide)]
      have : y.length ≤ n := by
        have := hl
        simp only [List.length_append, List.length_singleton] at this
        omega
      exact ih y this
    · rw [stripAllCR_of_last_ne hr]

theorem isDataL_plain (l : Chars) : isDataL l = startsWithL dataMarker l := by
  unfold isDataL
  rcases stripCR_cases l with he | ⟨y, hy, hs⟩
  · rw [he]
  · rw [hs, hy, startsWithL_concat (by decide)]

/-- The final flush treats a line exactly as the read loop would: it emits
the same delta, and drops everything else. -/
theorem flushLine_eq_lineContent (parse : Chars → ParseOutcome) (l : Chars) :
    flushLine parse l = lineContent parse l := by
  unfold lineContent
  rw [lineStep_stripCR]
  cases l with
  | nil =>
    have e2 : trimChars ([] : Chars) = [] := by decide
    simp [flushLine, lineStep, e2]
  | cons a l' =>
    by_cases hg : (a :: l').head? = some ':'
    · have h1 : flushLine parse (a :: l') = none := by
        rw [flushLine]; rw [if_pos (Or.inr hg)]
      have h2 : lineStep parse (a :: l') = LineAct.skip := by
        rw [lineStep]; rw [if_pos (Or.inl hg)]
      rw [h1, h2]
    · have hgf : ¬((a :: l') = [] ∨ (a :: l').head? = some ':') := by
        intro h; rcases h with h | h
        · simp at h
        · exact hg h
      by_cases hd : startsWithL dataMarker (a :: l') = true
      · have hg2 : ¬((a :: l').head? = some ':' ∨ trimChars (a :: l') = []) := by
          intro h; rcases h with h | h
          · exact hg h
          · exact data_trim_ne hd h
        have hdf : (startsWithL dataMarker (a :: l') = false) = False := by
          simp [hd]
        simp only [flushLine, lineStep, if_neg hgf, if_neg hg2, hdf, if_false,
          ite_false]
        by_cases hdn : trimChars ((a :: l').drop 6) = doneTok
        · rw [if_pos hdn, if_pos hdn]
        · simp only [if_neg hdn]
          cases parse (trimChars ((a :: l').drop 6)) with
          | malformed => rfl
          | parsed o => cases o <;> rfl
      · have hd' : startsWithL dataMarker (a :: l') = false := by simpa using hd
        have h1 : flushLine parse (a :: l') = none := by
          rw [flushLine]; rw [if_neg hgf, if_pos hd']
        by_cases hg2 : (a :: l').head? = some ':' ∨ trimChars (a :: l') = []
        · have h2 : lineStep parse (a :: l') = LineAct.skip := by
            rw [lineStep]; rw [if_pos hg2]
          rw [h1, h2]
        · have h2 : lineStep parse (a :: l') = LineAct.skip := by
            rw [lineStep]; rw [if_neg hg2, if_pos hd']
          rw [h1, h2]

/-! ## Unfolding equations for the read loop -/

theorem pbf_congr (parse : Chars → ParseOutcome) :
    ∀ f g buf, buf.length < f → buf.length < g →
      processBufferFuel parse f buf = processBufferFuel parse g buf := by
  intro f
  induction f with
  | zero => intro g buf hf; omega
  | succ f ih =>
    intro g buf hf hg
    cases g with
    | zero => omega
    | succ g =>
      cases hb : breakLine buf with
      | none => simp [processBufferFuel, hb]
      | some p =>
        obtain ⟨l, r⟩ := p
        have hr : r.length < buf.length := breakLine_len hb
        simp only [processBufferFuel, hb]
        cases hstep : lineStep parse (stripCR l) with
        | skip => exact ih g r (by omega) (by omega)
        | emit c => rw [ih g r (by omega) (by omega)]
        | done => rfl
        | fail => rfl

theorem pb_unfold (parse : Chars → ParseOutcome) (buf : Chars) :
    processBuffer parse buf =
      match breakLine buf with
      | none => ([], buf, false)
      | some (l, r) =>
        match lineStep parse (stripCR l) with
        | .skip => processBuffer parse r
        | .emit c => (c :: (processBuffer parse r).1, (processBuffer parse r).2)
        | .done => ([], r, true)
        | .fail => ([], stripCR l ++ '\n' :: r, false) := by
  show processBufferFuel parse (buf.length + 1) buf = _
  cases hb : breakLine buf with
  | none => simp [processBufferFuel, hb]
  | some p =>
    obtain ⟨l, r⟩ := p
    have hr : r.length < buf.length := breakLine_len hb
    simp only [processBufferFuel, hb]
    cases hstep : lineStep parse (stripCR l) with
    | skip =>
      rw [pbf_congr parse buf.length (r.length + 1) r hr (by omega)]
      rfl
    | emit c =>
      rw [pbf_congr parse buf.length (r.length + 1) r hr (by omega)]
      rfl
    | done => rfl
    | fail => rfl

theorem pb_none {buf : Chars} (parse : Chars → ParseOutcome)
    (h : breakLine buf = none) : processBuffer parse buf = ([], buf, false) := by
  rw [pb_unfold, h]

theorem pb_skip {buf l r : Chars} (parse : Chars → ParseOutcome)
    (h : breakLine buf = some (l, r)) (hs : lineStep parse (stripCR l) = .skip) :
    processBuffer parse buf = processBuffer parse r := by
  rw [pb_unfold, h]
  simp only [hs]

theorem pb_emit {buf l r c : Chars} (parse : Chars → ParseOutcome)
    (h : breakLine buf = some (l, r)) (hs : lineStep parse (stripCR l) = .emit c) :
    processBuffer parse buf =
      (c :: (processBuffer parse r).1, (processBuffer parse r).2) := by
  rw [pb_unfold, h]
  simp only [hs]

theorem pb_done {buf l r : Chars} (parse : Chars → ParseOutcome)
    (h : breakLine buf = some (l, r)) (hs : lineStep parse (stripCR l) = .done) :
    processBuffer parse buf = ([], r, true) := by
  rw [pb_unfold, h]
  simp only [hs]

theorem pb_fail {buf l r : Chars} (parse : Chars → ParseOutcome)
    (h : breakLine buf = some (l, r)) (hs : lineStep parse (stripCR l) = .fail) :
    processBuffer parse buf = ([], stripCR l ++ '\n' :: r, false) := by
  rw [pb_unfold, h]
  simp only [hs]

/-! ## Buffer equivalence -/

theorem Rbuf_refl (b : Chars) : Rbuf b b := Or.inl rfl

theorem Rbuf_symm {b b' : Chars} (h : Rbuf b b') : Rbuf b' b := by
  rcases h with h | ⟨l, l', r, h1, h2, h3, h4, h5⟩
  · exact Or.inl h.symm
  · exact Or.inr ⟨l', l, r, h2, h1, h3.symm, h5, h4⟩

theorem newline_split_inj {a b c d : Chars} (ha : '\n' ∉ a) (hc : '\n' ∉ c)
    (h : a ++ '\n' :: b = c ++ '\n' :: d) : a = c ∧ b = d := by
  have h1 : breakLine (a ++ '\n' :: b) = some (a, b) := breakLine_mk ha b
  have h2 : breakLine (c ++ '\n' :: d) = some (c, d) := breakLine_mk hc d
  rw [h, h2] at h1
  injection h1 with h3
  exact ⟨(congrArg Prod.fst h3).symm, (congrArg Prod.snd h3).symm⟩

theorem Rbuf_trans {b b' b'' : Chars} (h1 : Rbuf b b') (h2 : Rbuf b' b'') :
    Rbuf b b'' := by
  rcases h1 with h1 | ⟨l, l', r, hl, hl', hs, hb, hb'⟩
  · exact h1 ▸ h2
  · rcases h2 with h2 | ⟨m, m', q, hm, hm', ht, hc, hc'⟩
    · exact Or.inr ⟨l, l', r, hl, hl', hs, hb, h2 ▸ hb'⟩
    · have he : l' ++ '\n' :: r = m ++ '\n' :: q := by rw [← hb', hc]
      obtain ⟨hlm, hrq⟩ := newline_split_inj hl' hm he
      subst hlm; subst hrq
      exact Or.inr ⟨l, m', r, hl, hm', by rw [hs, ht], hb, hc'⟩

theorem Rbuf_append {b b' : Chars} (h : Rbuf b b') (s : Chars) :
    Rbuf (b ++ s) (b' ++ s) := by
  rcases h with h | ⟨l, l', r, hl, hl', hs, hb, hb'⟩
  · exact Or.inl (h ▸ rfl)
  · refine Or.inr ⟨l, l', r ++ s, hl, hl', hs, ?_, ?_⟩
    · rw [hb, List.append_assoc]; rfl
    · rw [hb', List.append_assoc]; rfl

/-- The read loop treats `Rbuf`-related buffers alike: same deltas, same
done flag, related final buffers. -/
theorem pb_Rbuf (parse : Chars → ParseOutcome) {b b' : Chars} (h : Rbuf b b') :
    (processBuffer parse b).1 = (processBuffer parse b').1 ∧
    (processBuffer parse b).2.2 = (processBuffer parse b').2.2 ∧
    Rbuf (processBuffer parse b).2.1 (processBuffer parse b').2.1 := by
  rcases h with h | ⟨l, l', r, hl, hl', hs, hb, hb'⟩
  · subst h
    exact ⟨rfl, rfl, Rbuf_refl _⟩
  · subst hb; subst hb'
    have h1 : breakLine (l ++ '\n' :: r) = some (l, r) := breakLine_mk hl r
    have h2 : breakLine (l' ++ '\n' :: r) = some (l', r) := breakLine_mk hl' r
    have hse : lineStep parse (stripCR l') = lineStep parse (stripCR l) := by
      rw [lineStep_stripCR, lineStep_stripCR, ← lineStep_stripAll parse l,
        ← lineStep_stripAll parse l', hs]
    cases hstep : lineStep parse (stripCR l) with
    | skip =>
      rw [pb_skip parse h1 hstep, pb_skip parse h2 (hse.trans hstep)]
      exact ⟨rfl, rfl, Rbuf_refl _⟩
    | emit c =>
      rw [pb_emit parse h1 hstep, pb_emit parse h2 (hse.trans hstep)]
      exact ⟨rfl, rfl, Rbuf_refl _⟩
    | done =>
      rw [pb_done parse h1 hstep, pb_done parse h2 (hse.trans hstep)]
      exact ⟨rfl, rfl, Rbuf_refl _⟩
    | fail =>
      rw [pb_fail parse h1 hstep, pb_fail parse h2 (hse.trans hstep)]
      refine ⟨rfl, rfl, Or.inr ⟨stripCR l, stripCR l', r,
        stripCR_no_newline hl, stripCR_no_newline hl', ?_, rfl, rfl⟩⟩
      rw [stripAllCR_stripCR, stripAllCR_stripCR, hs]

/-- Once `[DONE]` has been seen, appending more input to the original buffer
lands the appended text after the sentinel, in the final buffer. -/
theorem pb_done_append (parse : Chars → ParseOutcome) (s : Chars) :
    ∀ n (x : Chars), x.length < n → ∀ ds b,
      processBuffer parse x = (ds, b, true) →
      processBuffer parse (x ++ s) = (ds, b ++ s, true) := by
  intro n
  induction n with
  | zero => intro x hx; omega
  | succ n ih =>
    intro x hx ds b h
    cases hb : breakLine x with
    | none =>
      rw [pb_none parse hb] at h
      exact absurd (congrArg (fun q => q.2.2) h) (by simp)
    | some p =>
      obtain ⟨l, r⟩ := p
      have hr : r.length < x.length := breakLine_len hb
      have hxs : breakLine (x ++ s) = some (l, r ++ s) := breakLine_append hb s
      cases hstep : lineStep parse (stripCR l) with
      | skip =>
        rw [pb_skip parse hb hstep] at h
        rw [pb_skip parse hxs hstep]
        exact ih r (by omega) ds b h
      | emit c =>
        rw [pb_emit parse hb hstep] at h
        have h1 : c :: (processBuffer parse r).1 = ds := congrArg (fun q => q.1) h
        have h2 : (processBuffer parse r).2.1 = b := congrArg (fun q => q.2.1) h
        have h3 : (processBuffer parse r).2.2 = true := congrArg (fun q => q.2.2) h
        have hpr : processBuffer parse r = ((processBuffer parse r).1, b, true) := by
          rw [← h2, ← h3]
        have := ih r (by omega) (processBuffer parse r).1 b hpr
        rw [pb_emit parse hxs hstep, this, ← h1]
      | done =>
        rw [pb_done parse hb hstep] at h
        have h1 : ([] : List Chars) = ds := congrArg (fun q => q.1) h
        have h2 : r = b := congrArg (fun q => q.2.1) h
        rw [pb_done parse hxs hstep, ← h1, ← h2]
      | fail =>
        rw [pb_fail parse hb hstep] at h
        exact absurd (congrArg (fun q => q.2.2) h) (by simp)

/-- Appending more input to a buffer on which the loop stopped without
`[DONE]` first replays the stopped state: the new deltas and flag are those
of the loop on the stopped buffer extended by the new input, and the final
buffers agree up to `Rbuf`. -/
theorem pb_append (parse : Chars → ParseOutcome) (s : Chars) :
    ∀ n (x : Chars), x.length < n → ∀ ds b,
      processBuffer parse x = (ds, b, false) →
      (processBuffer parse (x ++ s)).1 = ds ++ (processBuffer parse (b ++ s)).1 ∧
      (processBuffer parse (x ++ s)).2.2 = (processBuffer parse (b ++ s)).2.2 ∧
      Rbuf (processBuffer parse (x ++ s)).2.1 (processBuffer parse (b ++ s)).2.1 := by
  intro n
  induction n with
  | zero => intro x hx; omega
  | succ n ih =>
    intro x hx ds b h
    cases hb : breakLine x with
    | none =>
      rw [pb_none parse hb] at h
      have h1 : ([] : List Chars) = ds := congrArg (fun q => q.1) h
      have h2 : x = b := congrArg (fun q => q.2.1) h
      subst h2
      rw [← h1]
      exact ⟨rfl, rfl, Rbuf_refl _⟩
    | some p =>
      obtain ⟨l, r⟩ := p
      have hr : r.length < x.length := breakLine_len hb
      have hnl : '\n' ∉ l := (breakLine_some_eq hb).2
      have hxs : breakLine (x ++ s) = some (l, r ++ s) := breakLine_append hb s
      cases hstep : lineStep parse (stripCR l) with
      | skip =>
        rw [pb_skip parse hb hstep] at h
        rw [pb_skip parse hxs hstep]
        exact ih r (by omega) ds b h
      | emit c =>
        rw [pb_emit parse hb hstep] at h
        have h1 : c :: (processBuffer parse r).1 = ds := congrArg (fun q => q.1) h
        have h2 : (processBuffer parse r).2.1 = b := congrArg (fun q => q.2.1) h
        have h3 : (processBuffer parse r).2.2 = false := congrArg (fun q => q.2.2) h
        have hpr : processBuffer parse r = ((processBuffer parse r).1, b, false) := by
          rw [← h2, ← h3]
        obtain ⟨ih1, ih2, ih3⟩ := ih r (by omega) (processBuffer parse r).1 b hpr
        rw [pb_emit parse hxs hstep]
        refine ⟨?_, ih2, ih3⟩
        rw [← h1]
        simp only [List.cons_append, ih1]
      | done =>
        rw [pb_done parse hb hstep] at h
        exact absurd (congrArg (fun q => q.2.2) h) (by simp)
      | fail =>
        rw [pb_fail parse hb hstep] at h
        have h1 : ([] : List Chars) = ds := congrArg (fun q => q.1) h
        have h2 : stripCR l ++ '\n' :: r = b := congrArg (fun q => q.2.1) h
        have hbs : b ++ s = stripCR l ++ '\n' :: (r ++ s) := by
          rw [← h2, List.append_assoc]; rfl
        have hb2 : breakLine (b ++ s) = some (stripCR l, r ++ s) := by
          rw [hbs]; exact breakLine_mk (stripCR_no_newline hnl) (r ++ s)
        have hstep2 : lineStep parse (stripCR (stripCR l)) = LineAct.fail := by
          rw [lineStep_stripCR]; exact hstep
        rw [pb_fail parse hxs hstep, pb_fail parse hb2 hstep2, ← h1]
        refine ⟨rfl, rfl, Or.inr ⟨stripCR l, stripCR (stripCR l), r ++ s,
          stripCR_no_newline hnl, stripCR_no_newline (stripCR_no_newline hnl),
          ?_, rfl, rfl⟩⟩
        rw [stripAllCR_stripCR, stripAllCR_stripCR, stripAllCR_stripCR]

/-! ## The chunk loop up to buffer equivalence -/

theorem EqT_refl (a : List Chars × Chars × Bool) : EqT a a :=
  ⟨rfl, rfl, Rbuf_refl _⟩

theorem EqT_trans {a b c : List Chars × Chars × Bool} (h1 : EqT a b)
    (h2 : EqT b c) : EqT a c :=
  ⟨h1.1.trans h2.1, h1.2.1.trans h2.2.1, Rbuf_trans h1.2.2 h2.2.2⟩

/-- The flush is blind to the `Rbuf` difference. -/
theorem flushE_Rbuf (parse : Chars → ParseOutcome) {b b' : Chars}
    (h : Rbuf b b') : flushE parse b = flushE parse b' := by
  rcases h with h | ⟨l, l', r, hl, hl', hs, hb, hb'⟩
  · rw [h]
  · subst hb; subst hb'
    have hall : (l ++ '\n' :: r).all jsWS = (l' ++ '\n' :: r).all jsWS := by
      rw [List.all_append, List.all_append, ← allWS_stripAll l, ← allWS_stripAll l', hs]
    have hflush : flushLine parse l = flushLine parse l' := by
      rw [← flushLine_stripAll parse l, ← flushLine_stripAll parse l', hs]
    unfold flushE
    by_cases hg : trimChars (l ++ '\n' :: r) = []
    · rw [if_pos hg, if_pos (by rw [trim_nil_iff, ← hall, ← trim_nil_iff]; exact hg)]
    · rw [if_neg hg, if_neg (by rw [trim_nil_iff, ← hall, ← trim_nil_iff]; exact hg),
        linesOf_break hl, linesOf_break hl']
      simp only [List.filterMap_cons, hflush]

theorem feed_Rbuf (parse : Chars → ParseOutcome) (cs : List Chars) :
    ∀ {b b'}, Rbuf b b' → EqT (feed parse cs b) (feed parse cs b') := by
  induction cs with
  | nil =>
    intro b b' h
    exact ⟨rfl, rfl, h⟩
  | cons c cs ih =>
    intro b b' h
    obtain ⟨e1, e2, e3⟩ := pb_Rbuf parse (Rbuf_append h c)
    simp only [feed]
    by_cases hf : (processBuffer parse (b ++ c)).2.2 = true
    · rw [if_pos hf, if_pos (e2 ▸ hf)]
      exact ⟨e1, rfl, e3⟩
    · rw [if_neg hf, if_neg (e2 ▸ hf)]
      obtain ⟨w1, w2, w3⟩ := ih e3
      exact ⟨by rw [e1, w1], by rw [w2], w3⟩

theorem feedAll_nil (parse : Chars → ParseOutcome) (x : Chars) :
    feedAll parse [] x = processBuffer parse x := by
  unfold feedAll
  by_cases hf : (processBuffer parse x).2.2 = true
  · rw [if_pos hf]
  · rw [if_neg hf]
    have hf' : (processBuffer parse x).2.2 = false := by simpa using hf
    show ((processBuffer parse x).1 ++ [], (processBuffer parse x).2.1, false) = _
    rw [List.append_nil, ← hf']

theorem feedAll_empty (parse : Chars → ParseOutcome) (cs : List Chars) :
    feedAll parse cs [] = feed parse cs [] := by
  have h0 : processBuffer parse [] = ([], [], false) := pb_none parse rfl
  unfold feedAll
  rw [h0]
  simp

theorem feedAll_done (parse : Chars → ParseOutcome) (cs : List Chars) {x : Chars}
    (h : (processBuffer parse x).2.2 = true) :
    feedAll parse cs x = processBuffer parse x := by
  unfold feedAll
  rw [if_pos h]

/-- Moving one chunk from the chunk list into the initial buffer does not
change the outcome (up to `Rbuf`), as long as the loop has not stopped. -/
theorem feedAll_shift (parse : Chars → ParseOutcome) (c : Chars) (cs : List Chars)
    (x : Chars) (h : (processBuffer parse x).2.2 = false) :
    EqT (feedAll parse (c :: cs) x) (feedAll parse cs (x ++ c)) := by
  have hx : processBuffer parse x =
      ((processBuffer parse x).1, (processBuffer parse x).2.1, false) := by
    rw [← h]
  obtain ⟨e1, e2, e3⟩ := pb_append parse c (x.length + 1) x (by omega)
    (processBuffer parse x).1 (processBuffer parse x).2.1 hx
  unfold feedAll
  rw [if_neg (by rw [h]; simp)]
  simp only [feed]
  by_cases hf1 : (processBuffer parse ((processBuffer parse x).2.1 ++ c)).2.2 = true
  · rw [if_pos hf1, if_pos (by rw [e2]; exact hf1)]
    refine ⟨?_, ?_, ?_⟩
    · show (processBuffer parse x).1 ++
        (processBuffer parse ((processBuffer parse x).2.1 ++ c)).1 =
        (processBuffer parse (x ++ c)).1
      exact e1.symm
    · show true = (processBuffer parse (x ++ c)).2.2
      exact (e2.trans hf1).symm
    · exact Rbuf_symm e3
  · rw [if_neg hf1, if_neg (by rw [e2]; exact hf1)]
    obtain ⟨w1, w2, w3⟩ := feed_Rbuf parse cs e3
    refine ⟨?_, ?_, ?_⟩
    · show (processBuffer parse x).1 ++
        ((processBuffer parse ((processBuffer parse x).2.1 ++ c)).1 ++
          (feed parse cs (processBuffer parse ((processBuffer parse x).2.1 ++ c)).2.1).1) =
        (processBuffer parse (x ++ c)).1 ++
          (feed parse cs (processBuffer parse (x ++ c)).2.1).1
      rw [e1, w1, List.append_assoc]
    · show (feed parse cs (processBuffer parse ((processBuffer parse x).2.1 ++ c)).2.1).2.2 =
        (feed parse cs (processBuffer parse (x ++ c)).2.1).2.2
      exact w2.symm
    · exact Rbuf_symm w3

/-- Every run of the chunk loop is, up to `Rbuf`, the single-shot run on the
concatenation of the chunks it actually consumed: all of them, or a prefix
after which the `[DONE]` flag is up. -/
theorem feedAll_prefix (parse : Chars → ParseOutcome) (cs : List Chars) :
    ∀ x, ∃ k, k ≤ cs.length ∧
      EqT (feedAll parse cs x) (processBuffer parse (x ++ (cs.take k).flatten)) ∧
      (k = cs.length ∨
        (processBuffer parse (x ++ (cs.take k).flatten)).2.2 = true) := by
  induction cs with
  | nil =>
    intro x
    refine ⟨0, by simp, ?_, Or.inl rfl⟩
    have he : x ++ (List.take 0 ([] : List Chars)).flatten = x := by simp
    rw [he, feedAll_nil]
    exact EqT_refl _
  | cons c cs ih =>
    intro x
    cases hf : (processBuffer parse x).2.2 with
    | true =>
      refine ⟨0, by simp, ?_, Or.inr ?_⟩
      · have he : x ++ (List.take 0 (c :: cs)).flatten = x := by simp
        rw [he, feedAll_done parse _ hf]
        exact EqT_refl _
      · have he : x ++ (List.take 0 (c :: cs)).flatten = x := by simp
        rw [he]; exact hf
    | false =>
      obtain ⟨k, hk, he, hside⟩ := ih (x ++ c)
      refine ⟨k + 1, by simpa using hk, ?_, ?_⟩
      · have ha : (x ++ c) ++ (cs.take k).flatten =
            x ++ ((c :: cs).take (k + 1)).flatten := by
          simp [List.append_assoc]
        rw [← ha]
        exact EqT_trans (feedAll_shift parse c cs x hf) he
      · have ha : (x ++ c) ++ (cs.take k).flatten =
            x ++ ((c :: cs).take (k + 1)).flatten := by
          simp [List.append_assoc]
        rcases hside with h | h
        · left; simp [h]
        · right; rw [← ha]; exact h

theorem finishRun_EqT (parse : Chars → ParseOutcome)
    {a b : List Chars × Chars × Bool} (h : EqT a b) :
    finishRun parse a = finishRun parse b := by
  unfold finishRun
  rw [h.1, flushE_Rbuf parse h.2.2]

theorem runStream_eq_feedAll (parse : Chars → ParseOutcome) (cs : List Chars) :
    runStream parse cs = finishRun parse (feedAll parse cs []) := by
  unfold runStream finishRun
  rw [feedAll_empty]

theorem oneShot_eq_finishRun (parse : Chars → ParseOutcome) (z : Chars) :
    oneShot parse z = finishRun parse (processBuffer parse z) := rfl

/-- Chunked emission equals single-shot emission on the consumed prefix. -/
theorem runStream_prefix (parse : Chars → ParseOutcome) (cs : List Chars) :
    ∃ k, k ≤ cs.length ∧
      runStream parse cs = oneShot parse ((cs.take k).flatten) ∧
      (k = cs.length ∨
        (processBuffer parse ((cs.take k).flatten)).2.2 = true) := by
  obtain ⟨k, hk, he, hside⟩ := feedAll_prefix parse cs []
  have hnil : ([] : Chars) ++ (cs.take k).flatten = (cs.take k).flatten := by simp
  rw [hnil] at he hside
  exact ⟨k, hk, by
    rw [runStream_eq_feedAll, oneShot_eq_finishRun]
    exact finishRun_EqT parse he, hside⟩

/-! ## The single-shot run emits exactly the deltas of the lines -/

theorem lines_all_ws {z : Chars} (h : z.all jsWS = true) :
    ∀ l ∈ linesOf z, l.all jsWS = true := by
  induction z with
  | nil =>
    intro l hl
    simp only [linesOf, List.mem_singleton] at hl
    rw [hl]; rfl
  | cons c cs ih =>
    rw [List.all_cons, Bool.and_eq_true] at h
    intro l hl
    by_cases hc : c = '\n'
    · rw [hc] at hl
      have hl2 : l ∈ ([] :: linesOf cs : List Chars) := by
        simpa [linesOf] using hl
      rcases List.mem_cons.mp hl2 with hl3 | hl3
      · rw [hl3]; rfl
      · exact ih h.2 l hl3
    · rw [linesOf_cons_ne hc] at hl
      rcases List.mem_cons.mp hl with hl | hl
      · have hh : headL (linesOf cs) ∈ linesOf cs := by
          cases he : linesOf cs with
          | nil => exact absurd he (linesOf_ne_nil cs)
          | cons a t => simp [headL]
        have := ih h.2 _ hh
        rw [hl, List.all_cons, h.1, this]; rfl
      · have : l ∈ linesOf cs := by
          cases he : linesOf cs with
          | nil => exact absurd he (linesOf_ne_nil cs)
          | cons a t =>
            rw [he] at hl
            exact he ▸ List.mem_cons_of_mem a hl
        exact ih h.2 l this

theorem stripCR_all_ws {l : Chars} (h : l.all jsWS = true) :
    (stripCR l).all jsWS = true := by
  rcases stripCR_cases l with he | ⟨y, hy, hs⟩
  · rw [he]; exact h
  · rw [hs]
    rw [hy, List.all_append, Bool.and_eq_true] at h
    exact h.1

theorem lineContent_ws {l : Chars} (parse : Chars → ParseOutcome)
    (h : l.all jsWS = true) : lineContent parse l = none := by
  unfold lineContent
  have hg : trimChars (stripCR l) = [] := trim_nil_iff.mpr (stripCR_all_ws h)
  rw [lineStep]
  rw [if_pos (Or.inr hg)]

theorem flushE_eq (parse : Chars → ParseOutcome) (z : Chars) :
    flushE parse z = wfContents parse (linesOf z) := by
  unfold flushE wfContents
  by_cases hg : trimChars z = []
  · rw [if_pos hg]
    have hall := trim_nil_iff.mp hg
    symm
    rw [List.filterMap_eq_nil_iff]
    intro l hl
    exact lineContent_ws parse (lines_all_ws hall l hl)
  · rw [if_neg hg]
    exact List.filterMap_congr (fun l _ => flushLine_eq_lineContent parse l)

theorem wf_cons_none {l : Chars} {ls : List Chars} (parse : Chars → ParseOutcome)
    (h : lineContent parse l = none) :
    wfContents parse (l :: ls) = wfContents parse ls := by
  unfold wfContents
  rw [List.filterMap_cons, h]

theorem wf_cons_some {l c : Chars} {ls : List Chars} (parse : Chars → ParseOutcome)
    (h : lineContent parse l = some c) :
    wfContents parse (l :: ls) = c :: wfContents parse ls := by
  unfold wfContents
  rw [List.filterMap_cons, h]

theorem lineContent_of_step {l : Chars} (parse : Chars → ParseOutcome)
    {a : LineAct} (h : lineStep parse (stripCR l) = a) (ha : ∀ c, a ≠ .emit c) :
    lineContent parse l = none := by
  unfold lineContent
  rw [h]
  cases a with
  | emit c => exact absurd rfl (ha c)
  | skip => rfl
  | done => rfl
  | fail => rfl

/-- A single-shot run delivers exactly the content of every line that the
loop would emit for — whether through the loop itself or the final flush. -/
theorem oneShot_eq_wf (parse : Chars → ParseOutcome) (z : Chars) :
    oneShot parse z = wfContents parse (linesOf z) := by
  suffices H : ∀ n (z : Chars), z.length < n →
      oneShot parse z = wfContents parse (linesOf z) from H (z.length + 1) z (by omega)
  intro n
  induction n with
  | zero => intro z hz; omega
  | succ n ih =>
    intro z hz
    cases hb : breakLine z with
    | none =>
      unfold oneShot
      rw [pb_none parse hb]
      show [] ++ flushE parse z = _
      rw [List.nil_append, flushE_eq]
    | some p =>
      obtain ⟨l, r⟩ := p
      obtain ⟨hzeq, hnl⟩ := breakLine_some_eq hb
      have hr : r.length < z.length := breakLine_len hb
      have hlines : linesOf z = l :: linesOf r := by
        rw [hzeq]; exact linesOf_break hnl r
      cases hstep : lineStep parse (stripCR l) with
      | skip =>
        unfold oneShot
        rw [pb_skip parse hb hstep, hlines,
          wf_cons_none parse (lineContent_of_step parse hstep (by intro c h; injection h))]
        exact ih r (by omega)
      | emit c =>
        unfold oneShot
        rw [pb_emit parse hb hstep, hlines,
          wf_cons_some parse (show lineContent parse l = some c by
            unfold lineContent; rw [hstep])]
        show c :: ((processBuffer parse r).1 ++
          flushE parse (processBuffer parse r).2.1) = _
        rw [show (processBuffer parse r).1 ++
          flushE parse (processBuffer parse r).2.1 = oneShot parse r from rfl]
        rw [ih r (by omega)]
      | done =>
        unfold oneShot
        rw [pb_done parse hb hstep, hlines,
          wf_cons_none parse (lineContent_of_step parse hstep (by intro c h; injection h))]
        show [] ++ flushE parse r = _
        rw [List.nil_append, flushE_eq]
      | fail =>
        unfold oneShot
        rw [pb_fail parse hb hstep, hlines,
          wf_cons_none parse (lineContent_of_step parse hstep (by intro c h; injection h))]
        show [] ++ flushE parse (stripCR l ++ '\n' :: r) = _
        rw [List.nil_append, flushE_eq,
          linesOf_break (stripCR_no_newline hnl) r,
          wf_cons_none parse]
        unfold lineContent
        rw [lineStep_stripCR]
        rw [hstep]

/-! ## Where `[DONE]` stops the loop -/

theorem pb_done_decomp (parse : Chars → ParseOutcome) :
    ∀ n (z : Chars), z.length < n → ∀ ds b,
      processBuffer parse z = (ds, b, true) →
      ∃ u pl dl, z = u ++ '\n' :: b ∧ linesOf u = pl ++ [dl] ∧
        (∀ l ∈ pl, isDoneB parse l = false) ∧ isDoneB parse dl = true ∧
        ds = wfContents parse pl := by
  intro n
  induction n with
  | zero => intro z hz; omega
  | succ n ih =>
    intro z hz ds b h
    cases hb : breakLine z with
    | none =>
      rw [pb_none parse hb] at h
      exact absurd (congrArg (fun q => q.2.2) h) (by simp)
    | some p =>
      obtain ⟨l, r⟩ := p
      obtain ⟨hzeq, hnl⟩ := breakLine_some_eq hb
      have hr : r.length < z.length := breakLine_len hb
      cases hstep : lineStep parse (stripCR l) with
      | skip =>
        rw [pb_skip parse hb hstep] at h
        obtain ⟨u, pl, dl, hru, hlines, hpl, hdl, hds⟩ := ih r (by omega) ds b h
        refine ⟨l ++ '\n' :: u, l :: pl, dl, ?_, ?_, ?_, hdl, ?_⟩
        · rw [hzeq, hru, List.append_assoc]; rfl
        · rw [linesOf_break hnl, hlines]; rfl
        · intro m hm
          rcases List.mem_cons.mp hm with hm | hm
          · rw [hm]; unfold isDoneB; rw [hstep]
          · exact hpl m hm
        · rw [wf_cons_none parse
            (lineContent_of_step parse hstep (by intro c hc; injection hc)), hds]
      | emit c =>
        rw [pb_emit parse hb hstep] at h
        have h1 : c :: (processBuffer parse r).1 = ds := congrArg (fun q => q.1) h
        have h2 : (processBuffer parse r).2.1 = b := congrArg (fun q => q.2.1) h
        have h3 : (processBuffer parse r).2.2 = true := congrArg (fun q => q.2.2) h
        have hpr : processBuffer parse r = ((processBuffer parse r).1, b, true) := by
          rw [← h2, ← h3]
        obtain ⟨u, pl, dl, hru, hlines, hpl, hdl, hds⟩ :=
          ih r (by omega) (processBuffer parse r).1 b hpr
        refine ⟨l ++ '\n' :: u, l :: pl, dl, ?_, ?_, ?_, hdl, ?_⟩
        · rw [hzeq, hru, List.append_assoc]; rfl
        · rw [linesOf_break hnl, hlines]; rfl
        · intro m hm
          rcases List.mem_cons.mp hm with hm | hm
          · rw [hm]; unfold isDoneB; rw [hstep]
          · exact hpl m hm
        · rw [wf_cons_some parse (show lineContent parse l = some c by
            unfold lineContent; rw [hstep]), ← hds, ← h1]
      | done =>
        rw [pb_done parse hb hstep] at h
        have h1 : ([] : List Chars) = ds := congrArg (fun q => q.1) h
        have h2 : r = b := congrArg (fun q => q.2.1) h
        refine ⟨l, [], l, ?_, ?_, by simp, ?_, by rw [← h1]; rfl⟩
        · rw [hzeq, h2]
        · rw [linesOf_nosplit hnl]; rfl
        · unfold isDoneB; rw [hstep]
      | fail =>
        rw [pb_fail parse hb hstep] at h
        exact absurd (congrArg (fun q => q.2.2) h) (by simp)

/-! ## Bodies with no `data: ` line after the sentinel -/

theorem takeWhile_ext {p : Chars → Bool} {u : List Chars}
    (h : ∀ x ∈ u, p x = true) {a : Chars} (ha : p a = false) (w : List Chars) :
    List.takeWhile p (u ++ a :: w) = u := by
  induction u with
  | nil => simp [List.takeWhile_cons, ha]
  | cons x u ih =>
    have hx := h x (List.mem_cons_self x u)
    simp only [List.cons_append, List.takeWhile_cons, hx, if_true]
    rw [ih (fun y hy => h y (List.mem_cons_of_mem x hy))]

theorem dropWhile_ext {p : Chars → Bool} {u : List Chars}
    (h : ∀ x ∈ u, p x = true) {a : Chars} (ha : p a = false) (w : List Chars) :
    List.dropWhile p (u ++ a :: w) = a :: w := by
  induction u with
  | nil => simp [List.dropWhile_cons, ha]
  | cons x u ih =>
    have hx := h x (List.mem_cons_self x u)
    simp only [List.cons_append, List.dropWhile_cons, hx, if_true]
    exact ih (fun y hy => h y (List.mem_cons_of_mem x hy))

theorem lineContent_of_not_data (parse : Chars → ParseOutcome) {l : Chars}
    (h : isDataL l = false) : lineContent parse l = none := by
  unfold lineContent lineStep
  by_cases hg : (stripCR l).head? = some ':' ∨ trimChars (stripCR l) = []
  · rw [if_pos hg]
  · rw [if_neg hg, if_pos (show startsWithL dataMarker (stripCR l) = false from h)]

theorem flushE_of_noData (parse : Chars → ParseOutcome) {z : Chars}
    (h : ∀ l ∈ linesOf z, isDataL l = false) : flushE parse z = [] := by
  rw [flushE_eq]
  unfold wfContents
  rw [List.filterMap_eq_nil_iff]
  exact fun l hl => lineContent_of_not_data parse (h l hl)

theorem isDataL_front {l w : Chars} (h : isDataL l = true) :
    isDataL (l ++ w) = true := by
  rw [isDataL_plain] at h ⊢
  exact startsWithL_mono h w

theorem noData_of_append {u v : Chars}
    (h : ∀ l ∈ linesOf (u ++ v), isDataL l = false) :
    ∀ l ∈ linesOf u, isDataL l = false := by
  intro l hl
  have hm := linesOf_append u v
  rcases mem_initL_or_lastL hl with hi | hi
  · exact h l (by rw [hm]; exact List.mem_append_left _ hi)
  · have hmem : lastL (linesOf u) ++ headL (linesOf v) ∈ linesOf (u ++ v) := by
      rw [hm]; exact List.mem_append_right _ (List.mem_cons_self _ _)
    have hnd := h _ hmem
    by_cases hd : isDataL l = true
    · have h2 : isDataL (lastL (linesOf u) ++ headL (linesOf v)) = true := by
        rw [← hi]; exact isDataL_front hd
      rw [hnd] at h2
      exact absurd h2 (by simp)
    · simpa using hd

/-- Under `GoodBody`, the text left in the buffer when `[DONE]` stops the
loop flushes to nothing — and so does any extension of it by the unread
rest of the body. -/
theorem runStream_good (parse : Chars → ParseOutcome) (cs : List Chars)
    (hgood : GoodBody parse cs.flatten) :
    runStream parse cs = oneShot parse cs.flatten := by
  obtain ⟨k, hk, he, hside⟩ := runStream_prefix parse cs
  rcases hside with h | h
  · rw [he, h, List.take_length]
  · have hpb : processBuffer parse ((cs.take k).flatten) =
        ((processBuffer parse ((cs.take k).flatten)).1,
         (processBuffer parse ((cs.take k).flatten)).2.1, true) := by
      rw [← h]
    obtain ⟨u, pl, dl, hpeq, hlines, hpl, hdl, hds⟩ :=
      pb_done_decomp parse ((cs.take k).flatten.length + 1) _ (by omega) _ _ hpb
    set b := (processBuffer parse ((cs.take k).flatten)).2.1 with hbdef
    set rest := (cs.drop k).flatten with hrest
    have hsplit : cs.flatten = (cs.take k).flatten ++ rest := by
      rw [hrest, ← List.flatten_append, List.take_append_drop]
    have hfull : cs.flatten = u ++ '\n' :: (b ++ rest) := by
      rw [hsplit, hpeq, List.append_assoc]; rfl
    have hflines : linesOf cs.flatten = (pl ++ [dl]) ++ linesOf (b ++ rest) := by
      rw [hfull, linesOf_split, hlines]
    have hafter : afterDone parse (linesOf cs.flatten) = linesOf (b ++ rest) := by
      unfold afterDone
      rw [hflines, List.append_assoc, List.singleton_append,
        dropWhile_ext (fun x hx => by rw [hpl x hx]; rfl) (by rw [hdl]; rfl)]
      simp
    have hnd : ∀ l ∈ linesOf (b ++ rest), isDataL l = false := by
      intro l hl
      exact hgood l (by rw [hafter]; exact hl)
    have hf1 : flushE parse (b ++ rest) = [] := flushE_of_noData parse hnd
    have hf2 : flushE parse b = [] :=
      flushE_of_noData parse (noData_of_append hnd)
    have hdone2 : processBuffer parse ((cs.take k).flatten ++ rest) =
        ((processBuffer parse ((cs.take k).flatten)).1, b ++ rest, true) :=
      pb_done_append parse rest ((cs.take k).flatten.length + 1) _ (by omega) _ _ hpb
    rw [he]
    unfold oneShot
    rw [hsplit, hdone2]
    show (processBuffer parse ((cs.take k).flatten)).1 ++ flushE parse b =
      (processBuffer parse ((cs.take k).flatten)).1 ++ flushE parse (b ++ rest)
    rw [hf1, hf2]

theorem runStream_single (parse : Chars → ParseOutcome) (z : Chars) :
    runStream parse [z] = oneShot parse z := by
  unfold runStream oneShot
  simp only [feed, List.nil_append]
  by_cases hf : (processBuffer parse z).2.2 = true
  · rw [if_pos hf]
  · rw [if_neg hf]
    show ((processBuffer parse z).1 ++ [], (processBuffer parse z).2.1, false).1 ++ _ = _
    simp

/-! ## The machine against the spec-side line view -/

theorem mem_beforeDone {parse : Chars → ParseOutcome} {l : Chars}
    {ls : List Chars} (h : l ∈ beforeDone parse ls) : isDoneB parse l = false := by
  have := List.mem_takeWhile_imp h
  simpa using this

theorem specContent_eq {parse : Chars → ParseOutcome} {l : Chars}
    (h : isDoneB parse l = false) :
    specContent parse l = lineContent parse l := by
  by_cases hd : isDataL l = true
  · unfold specContent
    rw [if_pos hd]
    have hd' : startsWithL dataMarker (stripCR l) = true := hd
    have hg : ¬((stripCR l).head? = some ':' ∨ trimChars (stripCR l) = []) := by
      intro hx
      rcases hx with hx | hx
      · rw [data_head hd'] at hx
        injection hx with hx
        exact absurd hx (by decide)
      · exact data_trim_ne hd' hx
    unfold lineContent lineStep
    rw [if_neg hg, if_neg (by rw [hd']; simp)]
    by_cases hdn : trimChars ((stripCR l).drop 6) = doneTok
    · exfalso
      have : isDoneB parse l = true := by
        unfold isDoneB lineStep
        rw [if_neg hg, if_neg (by rw [hd']; simp), if_pos hdn]
      rw [h] at this
      exact absurd this (by simp)
    · rw [if_neg hdn]
      show (match parse (payloadOf l) with
        | ParseOutcome.parsed (some c) => some c
        | _ => none) = _
      unfold payloadOf
      cases parse (trimChars ((stripCR l).drop 6)) with
      | malformed => rfl
      | parsed o => cases o <;> rfl
  · have hd' : isDataL l = false := by simpa using hd
    unfold specContent
    rw [if_neg (by rw [hd']; simp), lineContent_of_not_data parse hd']

theorem specDeltas_eq_wf_before (parse : Chars → ParseOutcome) (z : Chars) :
    specDeltas parse z = wfContents parse (beforeDone parse (linesOf z)) := by
  unfold specDeltas wfContents
  exact List.filterMap_congr (fun l hl => specContent_eq (mem_beforeDone hl))

theorem dropWhile_head_false {p : Chars → Bool} :
    ∀ {ls : List Chars} {a : Chars} {w : List Chars},
      List.dropWhile p ls = a :: w → p a = false := by
  intro ls
  induction ls with
  | nil => intro a w h; simp at h
  | cons x t ih =>
    intro a w h
    by_cases hp : p x = true
    · rw [List.dropWhile_cons, if_pos hp] at h
      exact ih h
    · rw [List.dropWhile_cons, if_neg hp] at h
      injection h with h1 h2
      rw [← h1]
      simpa using hp

theorem wf_eq_before_of_good {parse : Chars → ParseOutcome} {z : Chars}
    (hgood : GoodBody parse z) :
    wfContents parse (linesOf z) = wfContents parse (beforeDone parse (linesOf z)) := by
  have hdecomp := List.takeWhile_append_dropWhile
    (p := fun l => !isDoneB parse l) (l := linesOf z)
  cases hdw : List.dropWhile (fun l => !isDoneB parse l) (linesOf z) with
  | nil =>
    conv_lhs => rw [← hdecomp]
    rw [hdw, List.append_nil]
    rfl
  | cons dl after =>
    have hdl : isDoneB parse dl = true := by
      have := dropWhile_head_false hdw
      simpa using this
    have hafter : afterDone parse (linesOf z) = after := by
      unfold afterDone
      rw [hdw]
      rfl
    conv_lhs => rw [← hdecomp]
    rw [hdw]
    unfold wfContents
    rw [List.filterMap_append, List.filterMap_cons,
      lineContent_of_step parse (a := lineStep parse (stripCR dl)) rfl
        (by
          intro c hc
          unfold isDoneB at hdl
          rw [hc] at hdl
          exact absurd hdl (by simp))]
    · have hnil : List.filterMap (lineContent parse) after = [] := by
        rw [List.filterMap_eq_nil_iff]
        intro l hl
        exact lineContent_of_not_data parse (hgood l (hafter ▸ hl))
      rw [hnil, List.append_nil]
      rfl

/-- Every delta of a well-formed `data: ` line before the sentinel is
delivered, whatever the chunking. -/
theorem preDone_sublist (parse : Chars → ParseOutcome) (cs : List Chars) :
    List.Sublist (specDeltas parse cs.flatten) (runStream parse cs) := by
  obtain ⟨k, hk, he, hside⟩ := runStream_prefix parse cs
  rcases hside with h | h
  · rw [he, h, List.take_length, oneShot_eq_wf, specDeltas_eq_wf_before]
    exact List.Sublist.filterMap _ (List.takeWhile_sublist _)
  · have hpb : processBuffer parse ((cs.take k).flatten) =
        ((processBuffer parse ((cs.take k).flatten)).1,
         (processBuffer parse ((cs.take k).flatten)).2.1, true) := by
      rw [← h]
    obtain ⟨u, pl, dl, hpeq, hlines, hpl, hdl, hds⟩ :=
      pb_done_decomp parse ((cs.take k).flatten.length + 1) _ (by omega) _ _ hpb
    set b := (processBuffer parse ((cs.take k).flatten)).2.1 with hbdef
    set rest := (cs.drop k).flatten with hrest
    have hsplit : cs.flatten = (cs.take k).flatten ++ rest := by
      rw [hrest, ← List.flatten_append, List.take_append_drop]
    have hfull : cs.flatten = u ++ '\n' :: (b ++ rest) := by
      rw [hsplit, hpeq, List.append_assoc]; rfl
    have hflines : linesOf cs.flatten = pl ++ dl :: linesOf (b ++ rest) := by
      rw [hfull, linesOf_split, hlines, List.append_assoc, List.singleton_append]
    have hbefore : beforeDone parse (linesOf cs.flatten) = pl := by
      unfold beforeDone
      rw [hflines,
        takeWhile_ext (fun x hx => by rw [hpl x hx]; rfl) (by rw [hdl]; rfl)]
    have hplines : linesOf ((cs.take k).flatten) = pl ++ dl :: linesOf b := by
      rw [hpeq, linesOf_split, hlines, List.append_assoc, List.singleton_append]
    rw [he, oneShot_eq_wf, specDeltas_eq_wf_before, hbefore, hplines]
    unfold wfContents
    rw [List.filterMap_append]
    exact List.sublist_append_left _ _

/-! ## Claim theorems for the streaming parser -/

/-- Claim C1, corrected (amendment: the body must have no `data: ` line after the
`[DONE]` sentinel).  For every complete event-stream body in which every
`data: ` line before the sentinel carries well-formed JSON and no `data: `
line follows the sentinel, `streamChat` calls `onDelta` once for each such
line whose `choices[0].delta.content` is a truthy (non-empty) string, in
body order, and the concatenation of the `onDelta` arguments equals the
concatenation of those content fields. -/
theorem c1_stream_deltas_match_spec (parse : Chars → ParseOutcome)
    (body : Chars) (cs : List Chars) (hwf : WellFormedPre parse body)
    (hgood : GoodBody parse body) (hcs : cs.flatten = body) :
    runStream parse cs = specDeltas parse body ∧
    (runStream parse cs).flatten = (specDeltas parse body).flatten := by
  subst hcs
  have h : runStream parse cs = specDeltas parse cs.flatten := by
    rw [runStream_good parse cs hgood, oneShot_eq_wf,
      wf_eq_before_of_good hgood, specDeltas_eq_wf_before]
  exact ⟨h, by rw [h]⟩

/-- Claim C1, original form, refuted: with the single-chunk body
`data: {…"Hello"…}\ndata: [DONE]\ndata: {…"World"…}\n` — every `data: `
line before the sentinel is well-formed — `streamChat` emits
`["Hello", "World"]`, not the `["Hello"]` the claim's conclusion demands:
the final flush also replays the line after the sentinel. -/
theorem c1_counterexample :
    (∀ l ∈ beforeDone sampleParse
        (linesOf (("data: ".toList ++ jsonHello ++ ['\n'] ++
          "data: [DONE]\n".toList ++ "data: ".toList ++ jsonWorld ++ ['\n']))),
      isDataL l = true →
        sampleParse (payloadOf l) ≠ ParseOutcome.malformed) ∧
    runStream sampleParse [("data: ".toList ++ jsonHello ++ ['\n'] ++
        "data: [DONE]\n".toList ++ "data: ".toList ++ jsonWorld ++ ['\n'])] =
      ["Hello".toList, "World".toList] ∧
    specDeltas sampleParse (("data: ".toList ++ jsonHello ++ ['\n'] ++
        "data: [DONE]\n".toList ++ "data: ".toList ++ jsonWorld ++ ['\n'])) =
      ["Hello".toList] := by
  refine ⟨by decide, by decide, by decide⟩

/-- Witness for the corrected C1 at a concrete chunking: a two-chunk split
through the middle of the second `data: ` line. -/
theorem c1_witness :
    runStream sampleParse
        ["data: ".toList ++ jsonHello ++ "\nda".toList,
         "ta: ".toList ++ jsonWorld ++ "\ndata: [DONE]\n".toList] =
      ["Hello".toList, "World".toList] := by
  have h := c1_stream_deltas_match_spec sampleParse
    ("data: ".toList ++ jsonHello ++ "\nda".toList ++
      ("ta: ".toList ++ jsonWorld ++ "\ndata: [DONE]\n".toList))
    ["data: ".toList ++ jsonHello ++ "\nda".toList,
     "ta: ".toList ++ jsonWorld ++ "\ndata: [DONE]\n".toList]
    (by decide) (by decide) (by decide)
  rw [h.1]
  decide

/-- Claim C2, corrected (amendment: the body must have no `data: ` line after the
`[DONE]` sentinel).  For such bodies, every way of splitting the body into
network chunks produces exactly the `onDelta` sequence of single-chunk
delivery: a line split across chunks is held in the buffer until its
newline arrives. -/
theorem c2_chunking_invariant (parse : Chars → ParseOutcome) (body : Chars)
    (cs : List Chars) (hgood : GoodBody parse body) (hcs : cs.flatten = body) :
    runStream parse cs = runStream parse [body] := by
  subst hcs
  rw [runStream_good parse cs hgood, runStream_single]

/-- Claim C2, original form, refuted: when a `data: ` line follows the
sentinel, the chunk boundaries do change the emitted deltas.  Split exactly
at the newline after `[DONE]`, the trailing line is never read (the loop
stops before the second chunk); in a single chunk it is replayed by the
final flush. -/
theorem c2_counterexample :
    runStream sampleParse
        [("data: ".toList ++ jsonHello ++ "\ndata: [DONE]\n".toList),
         ("data: ".toList ++ jsonWorld ++ ['\n'])] =
      ["Hello".toList] ∧
    runStream sampleParse
        [("data: ".toList ++ jsonHello ++ "\ndata: [DONE]\n".toList) ++
         ("data: ".toList ++ jsonWorld ++ ['\n'])] =
      ["Hello".toList, "World".toList] := by
  refine ⟨by decide, by decide⟩

/-- Witness for the corrected C2: a three-way split with a chunk boundary
inside the first JSON payload. -/
theorem c2_witness :
    runStream sampleParse
        ["data: \x7b\"choices\"".toList,
         ":[\x7b\"delta\":\x7b\"content\":\"Hello\"\x7d\x7d]\x7d\n".toList,
         "data: [DONE]\n".toList] =
      runStream sampleParse
        ["data: ".toList ++ jsonHello ++ "\ndata: [DONE]\n".toList] := by
  have h := c2_chunking_invariant sampleParse
    ("data: ".toList ++ jsonHello ++ "\ndata: [DONE]\n".toList)
    ["data: \x7b\"choices\"".toList,
     ":[\x7b\"delta\":\x7b\"content\":\"Hello\"\x7d\x7d]\x7d\n".toList,
     "data: [DONE]\n".toList]
    (by decide) (by decide)
  rw [h]

/-- Claim C3, corrected (amendment: "every delta of a well-formed line" holds for the
lines before the `[DONE]` sentinel; a well-formed line in a chunk after the
one carrying `[DONE]` is never read).  A malformed `data: ` line never
produces an error: the run still ends in `onDone`, the malformed fragment
is dropped, and the content of every well-formed `data: ` line before the
sentinel is still delivered, in order. -/
theorem c3_malformed_tolerated (parse : Chars → ParseOutcome) (cs : List Chars)
    (hmal : ∃ l ∈ linesOf cs.flatten, lineStep parse (stripCR l) = LineAct.fail) :
    (∃ ds : List Chars, streamChatTrace parse (Resp.stream cs none) =
      ds.map CbEvent.delta ++ [CbEvent.done]) ∧
    List.Sublist (specDeltas parse cs.flatten) (runStream parse cs) :=
  ⟨⟨runStream parse cs, rfl⟩, preDone_sublist parse cs⟩

/-- Claim C3, original form, refuted: the stream below contains a malformed
`data: ` line, and the well-formed `data: {…"World"…}` line in the final
chunk is *not* delivered: `[DONE]` arrived in an earlier chunk, so the last
chunk is never read. -/
theorem c3_counterexample :
    (∃ l ∈ linesOf (("data: ".toList ++ jsonHello ++ "\ndata: [DONE]\n".toList) ++
        ("data: ".toList ++ jsonBad ++ ['\n'] ++
         "data: ".toList ++ jsonWorld ++ ['\n'])),
      lineStep sampleParse (stripCR l) = LineAct.fail) ∧
    runStream sampleParse
        [("data: ".toList ++ jsonHello ++ "\ndata: [DONE]\n".toList),
         ("data: ".toList ++ jsonBad ++ ['\n'] ++
          "data: ".toList ++ jsonWorld ++ ['\n'])] =
      ["Hello".toList] ∧
    sampleParse jsonWorld = ParseOutcome.parsed (some "World".toList) := by
  refine ⟨⟨"data: ".toList ++ jsonBad, by decide, by decide⟩, by decide, by decide⟩

/-- Witness for the corrected C3: a malformed line sits between two
well-formed ones, split over two chunks; both deltas are still delivered
and the trace ends in `onDone`. -/
theorem c3_witness :
    (∃ l ∈ linesOf ((("data: ".toList ++ jsonHello ++ ['\n'] ++
          "data: ".toList ++ jsonBad ++ ['\n']) ++
         ("data: ".toList ++ jsonWorld ++ "\ndata: [DONE]\n".toList))),
      lineStep sampleParse (stripCR l) = LineAct.fail) ∧
    (∃ ds : List Chars, streamChatTrace sampleParse (Resp.stream
        ["data: ".toList ++ jsonHello ++ ['\n'] ++
          "data: ".toList ++ jsonBad ++ ['\n'],
         "data: ".toList ++ jsonWorld ++ "\ndata: [DONE]\n".toList] none) =
      ds.map CbEvent.delta ++ [CbEvent.done]) ∧
    runStream sampleParse
        ["data: ".toList ++ jsonHello ++ ['\n'] ++
          "data: ".toList ++ jsonBad ++ ['\n'],
         "data: ".toList ++ jsonWorld ++ "\ndata: [DONE]\n".toList] =
      ["Hello".toList, "World".toList] := by
  have h := c3_malformed_tolerated sampleParse
    ["data: ".toList ++ jsonHello ++ ['\n'] ++
      "data: ".toList ++ jsonBad ++ ['\n'],
     "data: ".toList ++ jsonWorld ++ "\ndata: [DONE]\n".toList]
    ⟨"data: ".toList ++ jsonBad, by decide, by decide⟩
  exact ⟨⟨"data: ".toList ++ jsonBad, by decide, by decide⟩, h.1, by decide⟩

/-- Claim C9, confirmed.  Every `streamChat` call invokes exactly one
terminal callback — `onDone` or `onError` — as the last event of its trace,
with every `onDelta` before it. -/
theorem c9_single_terminal (parse : Chars → ParseOutcome) (r : Resp) :
    ∃ (ds : List Chars) (t : CbEvent), streamChatTrace parse r = ds.map CbEvent.delta ++ [t] ∧
      (t = CbEvent.done ∨ ∃ m, t = CbEvent.errorEv m) := by
  cases r with
  | fetchFail m => exact ⟨[], .errorEv m, rfl, Or.inr ⟨m, rfl⟩⟩
  | httpErr s e => exact ⟨[], .errorEv (httpErrMsg s e), rfl, Or.inr ⟨_, rfl⟩⟩
  | noBody => exact ⟨[], .errorEv noBodyMsg, rfl, Or.inr ⟨_, rfl⟩⟩
  | stream cs e =>
    cases e with
    | none => exact ⟨runStream parse cs, .done, rfl, Or.inl rfl⟩
    | some m =>
      by_cases hf : (feed parse cs []).2.2 = true
      · refine ⟨(feed parse cs []).1 ++ flushE parse (feed parse cs []).2.1,
          .done, ?_, Or.inl rfl⟩
        simp only [streamChatTrace]
        rw [if_pos hf]
      · refine ⟨(feed parse cs []).1, .errorEv m, ?_, Or.inr ⟨m, rfl⟩⟩
        simp only [streamChatTrace]
        rw [if_neg hf]

/-! ## Claim theorems for the glue code -/

/-- Claim C4, confirmed.  Inserting rows into `auth.users` fires the trigger
exactly once per row in insertion order; each firing posts a JSON body made
of exactly that row's `email` and `created_at` to the signup-notification
endpoint and returns the row unchanged; the stored rows are the inserted
rows. -/
theorem c4_trigger_once_per_row (settings : Chars × Chars) (rows : List UserRow) :
    (insertUsers settings rows).1 = rows ∧
    (insertUsers settings rows).2.length = rows.length ∧
    (∀ i : Nat, ((insertUsers settings rows).2)[i]? =
      (rows[i]?).map (fun r => (notify_new_signup settings r).1)) ∧
    (∀ r : UserRow, (notify_new_signup settings r).2 = r ∧
      (notify_new_signup settings r).1.body =
        [("email".toList, r.email), ("created_at".toList, r.created_at)] ∧
      (notify_new_signup settings r).1.url =
        settings.1 ++ "/functions/v1/signup-notification".toList) := by
  refine ⟨?_, by simp [insertUsers], ?_, ?_⟩
  · simp [insertUsers, notify_new_signup]
  · intro i
    simp [insertUsers]
  · intro r
    exact ⟨rfl, rfl, rfl⟩

theorem fileParts_ne_nil (f : FileModel) : fileParts f ≠ [] := by
  unfold fileParts
  by_cases h1 : startsWithL "image/".toList (mimeTypeOf f) = true
  · rw [if_pos h1]; simp
  · rw [if_neg h1]
    by_cases h2 : mimeTypeOf f = "application/pdf".toList
    · rw [if_pos h2]; simp
    · rw [if_neg h2]
      by_cases h3 : isTextLike f = true
      · rw [if_pos h3]; simp
      · rw [if_neg h3]; simp

theorem mapIdxGo_append_single {α β : Type} (f : Nat → α → β) (u : List α)
    (a : α) : ∀ i, mapIdxGo f i (u ++ [a]) = mapIdxGo f i u ++ [f (i + u.length) a] := by
  induction u with
  | nil => intro i; simp [mapIdxGo]
  | cons x u ih =>
    intro i
    show f i x :: mapIdxGo f (i + 1) (u ++ [a]) =
      (f i x :: mapIdxGo f (i + 1) u) ++ [f (i + (u.length + 1)) a]
    rw [ih (i + 1), List.cons_append]
    have he : i + 1 + u.length = i + (u.length + 1) := by omega
    rw [he]

theorem mapIdxGo_plain (fc : List Part) (n : Nat) :
    ∀ (u : List MsgT) (i : Nat), i + u.length ≤ n →
      mapIdxGo
        (fun idx m =>
          if idx = n ∧ m.role = "user".toList then
            ⟨m.role, ContentV.multi (Part.textPart m.content :: fc)⟩
          else plainMsg m)
        i u = u.map plainMsg := by
  intro u
  induction u with
  | nil => intro i _; rfl
  | cons x u ih =>
    intro i hi
    simp only [mapIdxGo, List.map_cons]
    have hx : ¬(i = n ∧ x.role = "user".toList) := by
      intro hc
      have : i < n := by
        simp only [List.length_cons] at hi
        omega
      omega
    rw [if_neg hx, ih (i + 1) (by simp only [List.length_cons] at hi; omega)]

/-- Claim C5, confirmed.  With a non-empty file list and a user-role last
message, the last message's content becomes a multimodal array: its original
text followed by the parts of every file in order (image → data-URL
image part; PDF → note text part plus data-URL image part; text-like →
inlined text part; anything else → placeholder text part).  All other
messages are forwarded unchanged, and with no files every message is
forwarded unchanged. -/
theorem c5_files_to_last_user_message (files : List FileModel)
    (pre : List MsgT) (lastm : MsgT) (hne : files ≠ [])
    (hrole : lastm.role = "user".toList) :
    processedMessages files (pre ++ [lastm]) =
      pre.map plainMsg ++
        [⟨lastm.role, ContentV.multi
          (Part.textPart lastm.content :: (files.map fileParts).flatten)⟩] ∧
    (∀ f, startsWithL "image/".toList (mimeTypeOf f) = true →
      fileParts f = [.imagePart (dataUrl (mimeTypeOf f) f.b64)]) ∧
    (∀ f, mimeTypeOf f = "application/pdf".toList →
      fileParts f = [.textPart (pdfNote f.name),
        .imagePart (dataUrl (mimeTypeOf f) f.b64)]) ∧
    (∀ f, startsWithL "image/".toList (mimeTypeOf f) = false →
      mimeTypeOf f ≠ "application/pdf".toList → isTextLike f = true →
      fileParts f = [.textPart (docWrapped f.name f.textContent)]) ∧
    (∀ f, startsWithL "image/".toList (mimeTypeOf f) = false →
      mimeTypeOf f ≠ "application/pdf".toList → isTextLike f = false →
      fileParts f = [.textPart (otherNote f.name (mimeTypeOf f))]) ∧
    (∀ msgs : List MsgT, processedMessages [] msgs = msgs.map plainMsg) := by
  refine ⟨?_, ?_, ?_, ?_, ?_, ?_⟩
  · obtain ⟨f0, ft, rfl⟩ : ∃ f0 ft, files = f0 :: ft := by
      cases files with
      | nil => exact absurd rfl hne
      | cons f0 ft => exact ⟨f0, ft, rfl⟩
    have hfc : ((f0 :: ft).map fileParts).flatten ≠ [] := by
      simp only [List.map_cons, List.flatten_cons]
      intro hx
      exact fileParts_ne_nil f0 (List.append_eq_nil.mp hx).1
    unfold processedMessages
    rw [if_neg hfc]
    rw [mapIdxGo_append_single]
    rw [mapIdxGo_plain _ ((pre ++ [lastm]).length - 1) pre 0 (by simp)]
    have hcond : (0 + pre.length = (pre ++ [lastm]).length - 1 ∧
        lastm.role = "user".toList) := by
      constructor
      · simp
      · exact hrole
    rw [if_pos hcond]
  · intro f h
    unfold fileParts
    rw [if_pos h]
  · intro f h
    have hni : startsWithL "image/".toList (mimeTypeOf f) = false := by
      rw [h]; decide
    unfold fileParts
    rw [if_neg (by rw [hni]; simp), if_pos h]
  · intro f h1 h2 h3
    unfold fileParts
    rw [if_neg (by rw [h1]; simp), if_neg h2, if_pos h3]
  · intro f h1 h2 h3
    unfold fileParts
    rw [if_neg (by rw [h1]; simp), if_neg h2, if_neg (by rw [h3]; simp)]
  · intro msgs
    unfold processedMessages
    rw [if_pos (by simp)]

/-- Witness for C5: one image file attached to a single user message. -/
theorem c5_witness :
    (([⟨"a.png".toList, "image/png".toList, "QUJD".toList, []⟩] :
        List FileModel) ≠ []) ∧
    processedMessages [⟨"a.png".toList, "image/png".toList, "QUJD".toList, []⟩]
        [⟨"user".toList, "hi".toList⟩] =
      [⟨"user".toList, ContentV.multi [Part.textPart "hi".toList,
        Part.imagePart (dataUrl "image/png".toList "QUJD".toList)]⟩] := by
  constructor
  · decide
  · have h := (c5_files_to_last_user_message
      [⟨"a.png".toList, "image/png".toList, "QUJD".toList, []⟩]
      [] ⟨"user".toList, "hi".toList⟩ (by decide) (by decide)).1
    exact h

/-- Claim C6, corrected (amendment: "non-empty" must be "non-whitespace"; the `onDone`
handler checks truthiness, but `speak` itself additionally trims).  The
response is sent to the text-to-speech backend iff voice is enabled and the
accumulated text has a non-whitespace character; the handler calls `speak`
only when voice is enabled and the text is non-empty; `speak` sends nothing
when voice is disabled or the text is whitespace-only. -/
theorem c6_voice_gating (e : Bool) (content t : Chars) :
    ((onDoneSpeak e content).isSome = true ↔
      (e = true ∧ trimChars content ≠ [])) ∧
    (¬(e = true ∧ content ≠ []) → onDoneSpeak e content = none) ∧
    ((e = false ∨ trimChars t = []) → speakTts e t = none) ∧
    ((onDoneSpeak e content).isSome = true → e = true ∧ content ≠ []) := by
  have hsp : ∀ (b : Bool) (s : Chars), (b = false ∨ trimChars s = []) →
      speakTts b s = none := by
    intro b s h
    unfold speakTts
    rw [if_pos h]
  refine ⟨?_, ?_, hsp e t, ?_⟩
  · constructor
    · intro h
      by_cases h1 : e = true ∧ content ≠ []
      · refine ⟨h1.1, ?_⟩
        intro htr
        have : onDoneSpeak e content = none := by
          unfold onDoneSpeak
          rw [if_pos h1, hsp e content (Or.inr htr)]
        rw [this] at h
        exact absurd h (by simp)
      · have : onDoneSpeak e content = none := by
          unfold onDoneSpeak
          rw [if_neg h1]
        rw [this] at h
        exact absurd h (by simp)
    · rintro ⟨he, htr⟩
      have hcne : content ≠ [] := by
        intro hc
        exact htr (by rw [hc]; rfl)
      have : onDoneSpeak e content = some content := by
        unfold onDoneSpeak speakTts
        rw [if_pos ⟨he, hcne⟩, if_neg (by
          rintro (h | h)
          · rw [he] at h; exact absurd h (by simp)
          · exact htr h)]
      rw [this]
      rfl
  · intro h
    unfold onDoneSpeak
    rw [if_neg h]
  · intro h
    by_cases h1 : e = true ∧ content ≠ []
    · exact h1
    · have : onDoneSpeak e content = none := by
        unfold onDoneSpeak
        rw [if_neg h1]
      rw [this] at h
      exact absurd h (by simp)

/-- Claim C6, original form, refuted: with voice enabled and the whitespace-only
(but non-empty) accumulated text `" "`, the handler calls `speak`, but
`speak` returns without contacting the backend — so "spoken iff enabled and
non-empty" fails in the right-to-left direction. -/
theorem c6_counterexample :
    onDoneSpeak true [' '] = none ∧ ([' '] : Chars) ≠ [] ∧ (true : Bool) = true := by
  refine ⟨by decide, by decide, rfl⟩

/-- Witness for C6 at non-degenerate input. -/
theorem c6_witness :
    (onDoneSpeak true ("hi".toList)).isSome = true := by
  have h := (c6_voice_gating true ("hi".toList) []).1
  rw [h]
  exact ⟨rfl, by decide⟩

/-- Claim C7, confirmed.  Every response of the chat, signup-notification and
cloudinary handlers — preflight, success and error alike — carries
`Access-Control-Allow-Origin: *`. -/
theorem c7_cors_everywhere (a : ChatCase) (b : SignupCase) (c : CloudinaryCase) :
    acaoHeader ∈ (chatHandler a).headers ∧
    acaoHeader ∈ (signupHandler b).headers ∧
    acaoHeader ∈ (cloudinaryHandler c).headers := by
  refine ⟨?_, ?_, ?_⟩
  · cases a with
    | options => simp [chatHandler, corsHeaders]
    | caught => simp [chatHandler, corsHeaders]
    | upstreamFail s =>
      simp only [chatHandler]
      split_ifs <;> simp [corsHeaders]
    | upstreamOk => simp [chatHandler, corsHeaders]
  · cases b <;> simp [signupHandler, corsHeaders]
  · cases c <;> simp [cloudinaryHandler, corsHeaders]

theorem natToHexAux_small {n : Nat} (f : Nat) (hn : n < 16) (hf : 0 < f) :
    natToHexAux f n = [hexDigit n] := by
  cases f with
  | zero => omega
  | succ f =>
    unfold natToHexAux
    rw [if_pos hn]

theorem jsHexByte_eq {b : Nat} (hb : b < 256) :
    padStart2 (natToHex b) = [hexDigit (b / 16), hexDigit (b % 16)] := by
  by_cases h16 : b < 16
  · have h1 : natToHex b = [hexDigit b] := natToHexAux_small (b + 1) h16 (by omega)
    rw [h1]
    unfold padStart2
    have hd : b / 16 = 0 := Nat.div_eq_of_lt h16
    have hm : b % 16 = b := Nat.mod_eq_of_lt h16
    rw [hd, hm]
    show ['0', hexDigit b] = [hexDigit 0, hexDigit b]
    rfl
  · have hge : 16 ≤ b := by omega
    have h1 : natToHex b = [hexDigit (b / 16), hexDigit (b % 16)] := by
      unfold natToHex natToHexAux
      rw [if_neg (by omega)]
      rw [natToHexAux_small b (by omega) (by omega)]
      rfl
    rw [h1]
    unfold padStart2
    rfl

/-- Claim C8, confirmed.  The upload signature is the lowercase hex SHA-1
digest of `timestamp=<t>` followed by the API secret; the delete signature
is the same digest of `public_id=<id>&timestamp=<t>` followed by the
secret.  (`sha1` abstracts `crypto.subtle.digest('SHA-1', ...)`; its output
bytes are below 256.) -/
theorem c8_cloudinary_signatures (sha1 : Chars → List Nat) (secret pid : Chars)
    (ts : Nat)
    (hb1 : ∀ b ∈ sha1 (uploadParams ts ++ secret), b < 256)
    (hb2 : ∀ b ∈ sha1 (deleteParams pid ts ++ secret), b < 256) :
    uploadSignature sha1 secret ts =
      specHexLower (sha1 ("timestamp=".toList ++ (Nat.repr ts).toList ++ secret)) ∧
    deleteSignature sha1 secret pid ts =
      specHexLower (sha1 ("public_id=".toList ++ pid ++ "&timestamp=".toList ++
        (Nat.repr ts).toList ++ secret)) := by
  have hmap : ∀ (d : List Nat), (∀ b ∈ d, b < 256) → hashHex d = specHexLower d := by
    intro d hd
    unfold hashHex specHexLower
    congr 1
    exact List.map_congr_left (fun b hb => jsHexByte_eq (hd b hb))
  constructor
  · exact hmap _ hb1
  · have h := hmap _ hb2
    unfold deleteSignature at *
    rw [h]
    show specHexLower (sha1 (deleteParams pid ts ++ secret)) = _
    unfold deleteParams
    rw [List.append_assoc, List.append_assoc, List.append_assoc]

/-- Witness for C8 with a stub digest containing boundary byte values. -/
theorem c8_witness :
    uploadSignature (fun _ => [0, 9, 10, 15, 16, 255]) ("sec".toList) 7 =
      specHexLower [0, 9, 10, 15, 16, 255] := by
  have h := (c8_cloudinary_signatures (fun _ => [0, 9, 10, 15, 16, 255])
    ("sec".toList) [] 7 (by decide) (by decide)).1
  exact h

/-- Claim C10, confirmed (note: under the implicit assumption the claim itself makes:
the pending message is identified by its id, i.e. no other message in the
list carries the same id — ids are `Date.now()` strings plus `"welcome"`).
The `onError` handler removes exactly the pending user message and clears
the typing flag; every other message survives with unchanged id, role and
content. -/
theorem c10_error_removes_pending (pre post : List UiMsg) (u : UiMsg)
    (h1 : ∀ m ∈ pre, m.id ≠ u.id) (h2 : ∀ m ∈ post, m.id ≠ u.id) :
    onErrorUpdate (pre ++ u :: post) u.id = (pre ++ post, false) := by
  unfold onErrorUpdate
  have ha : pre.filter (fun m => decide (m.id ≠ u.id)) = pre := by
    rw [List.filter_eq_self]
    intro m hm
    simpa using h1 m hm
  have hc : post.filter (fun m => decide (m.id ≠ u.id)) = post := by
    rw [List.filter_eq_self]
    intro m hm
    simpa using h2 m hm
  rw [List.filter_append, ha, List.filter_cons, if_neg (by simp), hc]

/-- Witness for C10: the welcome message plus a pending user message. -/
theorem c10_witness :
    onErrorUpdate
        [⟨"welcome".toList, "assistant".toList, "Hello!".toList⟩,
         ⟨"171".toList, "user".toList, "question".toList⟩]
        ("171".toList) =
      ([⟨"welcome".toList, "assistant".toList, "Hello!".toList⟩], false) := by
  have h := c10_error_removes_pending
    [⟨"welcome".toList, "assistant".toList, "Hello!".toList⟩] []
    ⟨"171".toList, "user".toList, "question".toList⟩
    (by decide) (by decide)
  exact h

end AssistantModel












